import Mathlib

/-
Verification of the testforge analysis → mapping → execution → validation
pipeline.  The Python sources are shallowly embedded: a Python `str` is a
`List Char` (abbreviated `Str`), regular-expression matching is embedded as
the equivalent deterministic scanners, floats are modelled as rationals,
and the asynchronous process launch of the executor is modelled by an
explicit outcome type.
-/

set_option maxRecDepth 20000

abbrev Str := List Char

/-- ASCII word character, Python regex `\w`. -/
def isWordChar (c : Char) : Bool := c.isAlphanum || c = '_'

/-- Python regex `\s` (ASCII): space, tab, newline, carriage return, vertical tab, form feed. -/
def isSpaceChar (c : Char) : Bool :=
  c = ' ' || c = '\t' || c = '\n' || c = '\r' || c = '\x0b' || c = '\x0c'

/-- Hexadecimal digit, case-insensitive (regex `[0-9a-f]` with IGNORECASE). -/
def isHexChar (c : Char) : Bool :=
  c.isDigit || ('a' ≤ c && c ≤ 'f') || ('A' ≤ c && c ≤ 'F')

/-- Python `str.split(sep)` for a one-character separator: no collapsing,
the empty string yields `[""]`. -/
def splitOnChar (sep : Char) : Str → List Str
  | [] => [[]]
  | c :: rest =>
      if c = sep then [] :: splitOnChar sep rest
      else
        match splitOnChar sep rest with
        | [] => [[c]]
        | p :: ps => (c :: p) :: ps

/-- Python `sep.join(parts)` for a one-character separator. -/
def joinWith (sep : Char) : List Str → Str
  | [] => []
  | [p] => p
  | p :: ps => p ++ sep :: joinWith sep ps

/-- Strip characters satisfying `p` from both ends (Python `str.strip`). -/
def stripBoth (p : Char → Bool) (s : Str) : Str :=
  ((s.dropWhile p).reverse.dropWhile p).reverse

/-- Python `str.strip()` (whitespace). -/
def stripWs (s : Str) : Str := stripBoth isSpaceChar s

/-- Python `pat in s` substring test. -/
def containsSub (pat : Str) : Str → Bool
  | [] => pat.isPrefixOf []
  | s@(_ :: rest) => pat.isPrefixOf s || containsSub pat rest

/-! ## models/results.py -/

/-- `TestResult.status` literal type. -/
inductive Status where
  | passed | failed | error | skipped | timeout
deriving DecidableEq, Repr

/-- models/results.py `TestResult` (fields relevant to the claims). -/
structure TestResult where
  test_name : Str
  status : Status
  error_message : Option Str := none
  stdout : Str := []
  stderr : Str := []
deriving DecidableEq, Repr

/-- models/results.py `ExecutionResult` (fields relevant to the claims). -/
structure ExecutionResult where
  suite_name : Str
  test_results : List TestResult := []
deriving DecidableEq, Repr

/-- `ExecutionResult.passed`: `sum(1 for t in self.test_results if t.status == "passed")`. -/
def ExecutionResult.passed (er : ExecutionResult) : Nat :=
  (er.test_results.map (fun t => if t.status = Status.passed then 1 else 0)).sum

/-- `ExecutionResult.failed`. -/
def ExecutionResult.failed (er : ExecutionResult) : Nat :=
  (er.test_results.map (fun t => if t.status = Status.failed then 1 else 0)).sum

/-- `ExecutionResult.errors`. -/
def ExecutionResult.errors (er : ExecutionResult) : Nat :=
  (er.test_results.map (fun t => if t.status = Status.error then 1 else 0)).sum

/-- `ExecutionResult.pass_rate`: `0.0` on an empty result list, else `passed / total`. -/
def ExecutionResult.pass_rate (er : ExecutionResult) : ℚ :=
  let total := er.test_results.length
  if total = 0 then 0 else (er.passed : ℚ) / (total : ℚ)

theorem sum_map_ite_eq_countP (l : List TestResult) (st : Status) :
    (l.map (fun t => if t.status = st then 1 else 0)).sum
      = l.countP (fun t => decide (t.status = st)) := by
  induction l with
  | nil => simp
  | cons h t ih =>
      by_cases hs : h.status = st <;>
        simp [List.countP_cons, hs, ih, Nat.add_comm]

/-- C10: `pass_rate` is division-safe — it is `0` on an empty result list and
`passed / total` otherwise, and the `passed` and `failed` counters count exactly
the results whose status is `passed` resp. `failed`. -/
theorem pass_rate_spec (er : ExecutionResult) :
    er.passed = er.test_results.countP (fun t => decide (t.status = Status.passed))
    ∧ er.failed = er.test_results.countP (fun t => decide (t.status = Status.failed))
    ∧ (er.test_results = [] → er.pass_rate = 0)
    ∧ (er.test_results ≠ [] →
        er.pass_rate
          = (er.test_results.countP (fun t => decide (t.status = Status.passed)) : ℚ)
              / (er.test_results.length : ℚ)) := by
  refine ⟨sum_map_ite_eq_countP _ _, sum_map_ite_eq_countP _ _, ?_, ?_⟩
  · intro h
    simp [ExecutionResult.pass_rate, h]
  · intro h
    have hlen : er.test_results.length ≠ 0 := by
      simpa [List.length_eq_zero] using h
    simp [ExecutionResult.pass_rate, hlen, ExecutionResult.passed,
      sum_map_ite_eq_countP]

/-- C10 witness: evaluation of `pass_rate_spec` on a concrete two-test result. -/
theorem pass_rate_spec_witness :
    ({ suite_name := "s".toList,
       test_results :=
         [ { test_name := "a".toList, status := Status.passed },
           { test_name := "b".toList, status := Status.failed } ] } :
        ExecutionResult).pass_rate = (1 : ℚ) / 2 := by
  have h := (pass_rate_spec
    { suite_name := "s".toList,
      test_results :=
        [ { test_name := "a".toList, status := Status.passed },
          { test_name := "b".toList, status := Status.failed } ] }).2.2.2 (by decide)
  rw [h]
  simp only [List.countP_cons, List.countP_nil, List.length_cons, List.length_nil]
  simp

/-! ## agents/mapper/api_mapper.py — MapperAgent._normalize_path -/

/-- Regex `^\d+$`: non-empty, all decimal digits. -/
def isNumericSeg (s : Str) : Bool := !s.isEmpty && s.all Char.isDigit

/-- Regex `^[0-9a-f]{8}-[0-9a-f]{4}-[0-9a-f]{4}-[0-9a-f]{4}-[0-9a-f]{12}$`
with IGNORECASE: five dash-separated groups of lengths 8,4,4,4,12, all hex. -/
def isUuidSeg (s : Str) : Bool :=
  decide ((splitOnChar '-' s).map List.length = [8, 4, 4, 4, 12])
    && (splitOnChar '-' s).all (fun g => g.all isHexChar)

/-- One segment of `MapperAgent._normalize_path`: numeric segments become
`{id}`, UUID-shaped segments become `{uuid}`, all others are kept. -/
def normalizeSegment (s : Str) : Str :=
  if isNumericSeg s then "{id}".toList
  else if isUuidSeg s then "{uuid}".toList
  else s

/-- `MapperAgent._normalize_path`: `path.strip("/")`, split on `/`, replace
each segment, re-join with `/` and prepend `/`. -/
def normalize_path (path : Str) : Str :=
  let parts := splitOnChar '/' (stripBoth (fun c => c = '/') path)
  '/' :: joinWith '/' (parts.map normalizeSegment)

theorem splitOnChar_ne_nil (sep : Char) (s : Str) : splitOnChar sep s ≠ [] := by
  cases s with
  | nil => simp [splitOnChar]
  | cons c rest =>
      by_cases h : c = sep
      · simp [splitOnChar, h]
      · simp only [splitOnChar, h, if_false]
        cases splitOnChar sep rest <;> simp

theorem mem_splitOnChar_no_sep (sep : Char) (s : Str) :
    ∀ g ∈ splitOnChar sep s, sep ∉ g := by
  induction s with
  | nil => intro g hg; simp [splitOnChar] at hg; simp [hg]
  | cons c rest ih =>
      intro g hg
      by_cases h : c = sep
      · simp only [splitOnChar, h, if_true, List.mem_cons] at hg
        rcases hg with hg | hg
        · simp [hg]
        · exact ih g hg
      · simp only [splitOnChar, h, if_false] at hg
        rcases hsp : splitOnChar sep rest with _ | ⟨p, ps⟩
        · exact absurd hsp (splitOnChar_ne_nil sep rest)
        · rw [hsp] at hg
          simp only [List.mem_cons] at hg
          rcases hg with hg | hg
          · subst hg
            intro hmem
            rcases List.mem_cons.1 hmem with h1 | h1
            · exact h h1.symm
            · exact ih p (by rw [hsp]; exact List.mem_cons_self p ps) h1
          · exact ih g (by rw [hsp]; exact List.mem_cons_of_mem p hg)

theorem splitOnChar_no_sep_eq (sep : Char) (g : Str) (h : sep ∉ g) :
    splitOnChar sep g = [g] := by
  induction g with
  | nil => simp [splitOnChar]
  | cons c rest ih =>
      have hc : c ≠ sep := fun hc => h (by simp [hc])
      have hrest : sep ∉ rest := fun hm => h (List.mem_cons_of_mem c hm)
      simp only [splitOnChar, if_neg (fun hcc => hc hcc)]
      rw [ih hrest]

theorem splitOnChar_append_sep (sep : Char) (g t : Str) (h : sep ∉ g) :
    splitOnChar sep (g ++ sep :: t) = g :: splitOnChar sep t := by
  induction g with
  | nil => simp [splitOnChar]
  | cons c rest ih =>
      have hc : c ≠ sep := fun hc => h (by simp [hc])
      have hrest : sep ∉ rest := fun hm => h (List.mem_cons_of_mem c hm)
      simp only [List.cons_append, splitOnChar, if_neg (fun hcc => hc hcc), List.append_eq]
      rw [ih hrest]

theorem splitOnChar_joinWith (sep : Char) (l : List Str) (hne : l ≠ [])
    (hsep : ∀ g ∈ l, sep ∉ g) :
    splitOnChar sep (joinWith sep l) = l := by
  induction l with
  | nil => exact absurd rfl hne
  | cons g gs ih =>
      cases gs with
      | nil =>
          simp only [joinWith]
          exact splitOnChar_no_sep_eq sep g (hsep g (List.mem_cons_self g []))
      | cons g2 gs2 =>
          have hj : joinWith sep (g :: g2 :: gs2) = g ++ sep :: joinWith sep (g2 :: gs2) := rfl
          rw [hj, splitOnChar_append_sep sep _ _ (hsep g (List.mem_cons_self g _))]
          rw [ih (by simp) (fun x hx => hsep x (List.mem_cons_of_mem g hx))]

theorem head?_dropWhile_not (p : Char → Bool) (l : Str) :
    ∀ c, (l.dropWhile p).head? = some c → p c = false := by
  induction l with
  | nil => intro c hc; simp [List.dropWhile] at hc
  | cons a l ih =>
      intro c hc
      by_cases ha : p a
      · rw [List.dropWhile_cons, if_pos ha] at hc
        exact ih c hc
      · rw [List.dropWhile_cons, if_neg ha] at hc
        simp only [List.head?] at hc
        cases hc
        simpa using ha

theorem stripBoth_head_not (p : Char → Bool) (s : Str) :
    ∀ c, (stripBoth p s).head? = some c → p c = false := by
  intro c hc
  unfold stripBoth at hc
  set m := (s.dropWhile p).reverse.dropWhile p with hm
  have hsuf : m <:+ (s.dropWhile p).reverse := List.dropWhile_suffix p
  have hpre0 : m.reverse <+: ((s.dropWhile p).reverse).reverse :=
    List.reverse_prefix.2 hsuf
  have hpre : m.reverse <+: s.dropWhile p := by
    rwa [List.reverse_reverse] at hpre0
  rcases hpre with ⟨t, ht⟩
  rcases hrev : m.reverse with _ | ⟨a, u⟩
  · rw [hrev] at hc; simp at hc
  · rw [hrev] at ht hc
    simp only [List.head?] at hc
    cases hc
    have : (s.dropWhile p).head? = some c := by
      rw [← ht]; rfl
    exact head?_dropWhile_not p s c this

theorem stripBoth_getLast_not (p : Char → Bool) (s : Str) :
    ∀ c, (stripBoth p s).getLast? = some c → p c = false := by
  intro c hc
  unfold stripBoth at hc
  rw [← List.head?_reverse, List.reverse_reverse] at hc
  exact head?_dropWhile_not p (s.dropWhile p).reverse c hc

theorem stripBoth_eq_self (p : Char → Bool) (s : Str)
    (h1 : ∀ c, s.head? = some c → p c = false)
    (h2 : ∀ c, s.getLast? = some c → p c = false) :
    stripBoth p s = s := by
  have hd : s.dropWhile p = s := by
    cases s with
    | nil => rfl
    | cons a l =>
        rw [List.dropWhile_cons, if_neg (by simp [h1 a rfl])]
  unfold stripBoth
  rw [hd]
  have hd2 : s.reverse.dropWhile p = s.reverse := by
    rcases hrev : s.reverse with _ | ⟨a, u⟩
    · rfl
    · have : s.getLast? = some a := by
        rw [← List.head?_reverse, hrev]; rfl
      rw [List.dropWhile_cons, if_neg (by simp [h2 a this])]
  rw [hd2, List.reverse_reverse]

theorem stripBoth_cons_pos (p : Char → Bool) (c : Char) (s : Str) (h : p c = true) :
    stripBoth p (c :: s) = stripBoth p s := by
  unfold stripBoth
  rw [List.dropWhile_cons, if_pos h]

theorem joinWith_head (sep : Char) (g : Str) (gs : List Str) (hg : g ≠ []) :
    (joinWith sep (g :: gs)).head? = g.head? := by
  cases gs with
  | nil => rfl
  | cons g2 gs2 =>
      cases g with
      | nil => exact absurd rfl hg
      | cons a t => rfl

theorem joinWith_getLast (sep : Char) (l : List Str) (g : Str)
    (hlast : l.getLast? = some g) (hg : g ≠ []) :
    (joinWith sep l).getLast? = g.getLast? := by
  induction l with
  | nil => simp at hlast
  | cons x xs ih =>
      cases xs with
      | nil =>
          simp only [List.getLast?_singleton] at hlast
          cases hlast
          rfl
      | cons y ys =>
          rw [List.getLast?_cons_cons] at hlast
          have hjoin : joinWith sep (x :: y :: ys) = x ++ sep :: joinWith sep (y :: ys) := rfl
          have hrec := ih hlast
          have hne : joinWith sep (y :: ys) ≠ [] := by
            intro hnil
            rcases g with _ | ⟨a, t⟩
            · exact hg rfl
            · rw [hnil] at hrec
              rw [List.getLast?_eq_getLast (a :: t) (by simp)] at hrec
              exact Option.noConfusion hrec
          rw [hjoin, List.getLast?_append_of_ne_nil x (by simp)]
          have : (sep :: joinWith sep (y :: ys)).getLast? = (joinWith sep (y :: ys)).getLast? := by
            have := List.getLast?_append_of_ne_nil [sep] hne
            simpa using this
          rw [this, hrec]

theorem splitOnChar_cons_ne (sep c : Char) (rest : Str) (h : ¬ c = sep) :
    ∃ p ps, splitOnChar sep rest = p :: ps
      ∧ splitOnChar sep (c :: rest) = (c :: p) :: ps := by
  rcases hsp : splitOnChar sep rest with _ | ⟨p, ps⟩
  · exact absurd hsp (splitOnChar_ne_nil sep rest)
  · refine ⟨p, ps, rfl, ?_⟩
    simp only [splitOnChar, if_neg h, hsp]

theorem splitOnChar_getLast_ends (sep : Char) (s : Str) (c : Char)
    (hlast : s.getLast? = some c) (hc : ¬ c = sep) :
    ∃ g, (splitOnChar sep s).getLast? = some g ∧ g ≠ [] ∧ g.getLast? = some c := by
  induction s with
  | nil => simp at hlast
  | cons a rest ih =>
      cases rest with
      | nil =>
          simp only [List.getLast?_singleton] at hlast
          have hac : a = c := Option.some.inj hlast
          subst hac
          rcases splitOnChar_cons_ne sep a [] hc with ⟨p, ps, hp, hcons⟩
          have : splitOnChar sep ([] : Str) = [[]] := rfl
          rw [this] at hp
          cases hp
          rw [hcons]
          exact ⟨[a], rfl, by simp, rfl⟩
      | cons b rest2 =>
          rw [List.getLast?_cons_cons] at hlast
          rcases ih hlast with ⟨g, hg1, hg2, hg3⟩
          by_cases ha : a = sep
          · subst ha
            have : splitOnChar a (a :: b :: rest2) = [] :: splitOnChar a (b :: rest2) := by
              simp [splitOnChar]
            rw [this]
            refine ⟨g, ?_, hg2, hg3⟩
            rcases hsp : splitOnChar a (b :: rest2) with _ | ⟨p, ps⟩
            · exact absurd hsp (splitOnChar_ne_nil a (b :: rest2))
            · rw [hsp] at hg1
              rw [List.getLast?_cons_cons]
              exact hg1
          · rcases splitOnChar_cons_ne sep a (b :: rest2) ha with ⟨p, ps, hp, hcons⟩
            rw [hcons]
            rw [hp] at hg1
            cases ps with
            | nil =>
                simp only [List.getLast?_singleton] at hg1
                cases hg1
                exact ⟨a :: g, by simp [List.getLast?_singleton], by simp, by
                  rcases g with _ | ⟨x, t⟩
                  · exact absurd rfl hg2
                  · rw [List.getLast?_cons_cons]; exact hg3⟩
            | cons q qs =>
                rw [List.getLast?_cons_cons] at hg1
                refine ⟨g, ?_, hg2, hg3⟩
                rw [List.getLast?_cons_cons]
                exact hg1

theorem normalizeSegment_ne_nil (g : Str) (h : g ≠ []) : normalizeSegment g ≠ [] := by
  unfold normalizeSegment
  by_cases h1 : isNumericSeg g = true
  · rw [if_pos h1]; decide
  · rw [if_neg h1]
    by_cases h2 : isUuidSeg g = true
    · rw [if_pos h2]; decide
    · rw [if_neg h2]; exact h

theorem normalizeSegment_no_slash (g : Str) (h : ¬ '/' ∈ g) :
    ¬ '/' ∈ normalizeSegment g := by
  unfold normalizeSegment
  by_cases h1 : isNumericSeg g = true
  · rw [if_pos h1]; decide
  · rw [if_neg h1]
    by_cases h2 : isUuidSeg g = true
    · rw [if_pos h2]; decide
    · rw [if_neg h2]; exact h

theorem normalizeSegment_head_not_slash (g : Str) (c : Char) (hh : g.head? = some c)
    (hc : ¬ c = '/') : ∀ d, (normalizeSegment g).head? = some d → ¬ d = '/' := by
  intro d hd
  unfold normalizeSegment at hd
  by_cases h1 : isNumericSeg g = true
  · rw [if_pos h1] at hd
    have : d = '{' := (Option.some.inj hd).symm
    subst this; decide
  · rw [if_neg h1] at hd
    by_cases h2 : isUuidSeg g = true
    · rw [if_pos h2] at hd
      have : d = '{' := (Option.some.inj hd).symm
      subst this; decide
    · rw [if_neg h2] at hd
      rw [hh] at hd
      have : c = d := Option.some.inj hd
      subst this; exact hc

theorem normalizeSegment_getLast_not_slash (g : Str) (c : Char)
    (hh : g.getLast? = some c) (hc : ¬ c = '/') :
    ∀ d, (normalizeSegment g).getLast? = some d → ¬ d = '/' := by
  intro d hd
  unfold normalizeSegment at hd
  by_cases h1 : isNumericSeg g = true
  · rw [if_pos h1] at hd
    have : d = '}' := (Option.some.inj hd).symm
    subst this; decide
  · rw [if_neg h1] at hd
    by_cases h2 : isUuidSeg g = true
    · rw [if_pos h2] at hd
      have : d = '}' := (Option.some.inj hd).symm
      subst this; decide
    · rw [if_neg h2] at hd
      rw [hh] at hd
      have : c = d := Option.some.inj hd
      subst this; exact hc

theorem normalizeSegment_idem (g : Str) :
    normalizeSegment (normalizeSegment g) = normalizeSegment g := by
  by_cases h1 : isNumericSeg g = true
  · have e : normalizeSegment g = "{id}".toList := by
      unfold normalizeSegment; rw [if_pos h1]
    rw [e]; decide
  · by_cases h2 : isUuidSeg g = true
    · have e : normalizeSegment g = "{uuid}".toList := by
        unfold normalizeSegment; rw [if_neg h1, if_pos h2]
      rw [e]; decide
    · have e : normalizeSegment g = g := by
        unfold normalizeSegment; rw [if_neg h1, if_neg h2]
      rw [e, e]

theorem isUuid_not_numeric (g : Str) (h : isUuidSeg g = true) :
    isNumericSeg g = false := by
  by_contra hn
  have hn2 : isNumericSeg g = true := by
    cases hx : isNumericSeg g
    · exact absurd hx hn
    · rfl
  have hdig : ∀ c ∈ g, c.isDigit := by
    unfold isNumericSeg at hn2
    simp at hn2
    exact hn2.2
  have hnodash : ¬ '-' ∈ g := fun hm => absurd (hdig '-' hm) (by decide)
  have hsp : splitOnChar '-' g = [g] := splitOnChar_no_sep_eq '-' g hnodash
  unfold isUuidSeg at h
  rw [hsp] at h
  simp at h

theorem normalize_path_idem (p : Str) :
    normalize_path (normalize_path p) = normalize_path p := by
  rcases hs0 : stripBoth (fun c => c = '/') p with _ | ⟨c0, rest0⟩
  · have e1 : normalize_path p = ['/'] := by
      simp only [normalize_path]
      rw [hs0]
      rfl
    rw [e1]
    decide
  · have hc0 : ¬ c0 = '/' := by
      have h := stripBoth_head_not (fun c => c = '/') p c0 (by rw [hs0]; rfl)
      simp at h
      exact h
    have hclex : ∃ cl, (c0 :: rest0).getLast? = some cl :=
      ⟨(c0 :: rest0).getLast (by simp), List.getLast?_eq_getLast _ _⟩
    rcases hclex with ⟨cl, hcl⟩
    have hcl_ne : ¬ cl = '/' := by
      have h := stripBoth_getLast_not (fun c => c = '/') p cl (by rw [hs0]; exact hcl)
      simp at h
      exact h
    rcases splitOnChar_cons_ne '/' c0 rest0 hc0 with ⟨p1, ps, hp1, hsplit⟩
    rcases splitOnChar_getLast_ends '/' (c0 :: rest0) cl hcl hcl_ne with ⟨g, hg1, hg2, hg3⟩
    rw [hsplit] at hg1
    have hg0ne : normalizeSegment (c0 :: p1) ≠ [] := normalizeSegment_ne_nil _ (by simp)
    have hmapl : (((c0 :: p1) :: ps).map normalizeSegment)
        = normalizeSegment (c0 :: p1) :: ps.map normalizeSegment := rfl
    set J := joinWith '/' (((c0 :: p1) :: ps).map normalizeSegment) with hJ
    have hhead : ∀ c, J.head? = some c → decide (c = '/') = false := by
      intro c hc
      rw [hJ, hmapl, joinWith_head '/' _ _ hg0ne] at hc
      have := normalizeSegment_head_not_slash (c0 :: p1) c0 rfl hc0 c hc
      simpa using this
    have hmaplast : (((c0 :: p1) :: ps).map normalizeSegment).getLast?
        = some (normalizeSegment g) := by
      rw [List.getLast?_map, hg1]
      rfl
    have hlastJ : ∀ c, J.getLast? = some c → decide (c = '/') = false := by
      intro c hc
      rw [hJ, joinWith_getLast '/' _ (normalizeSegment g) hmaplast
        (normalizeSegment_ne_nil g hg2)] at hc
      have := normalizeSegment_getLast_not_slash g cl hg3 hcl_ne c hc
      simpa using this
    have hstrip : stripBoth (fun c => c = '/') J = J :=
      stripBoth_eq_self _ J hhead hlastJ
    have helems : ∀ x ∈ ((c0 :: p1) :: ps).map normalizeSegment, ¬ '/' ∈ x := by
      intro x hx
      rcases List.mem_map.1 hx with ⟨y, hy, hxy⟩
      subst hxy
      apply normalizeSegment_no_slash
      apply mem_splitOnChar_no_sep '/' (c0 :: rest0)
      rw [hsplit]
      exact hy
    have hsj : splitOnChar '/' J = ((c0 :: p1) :: ps).map normalizeSegment := by
      rw [hJ]
      exact splitOnChar_joinWith '/' _ (by simp) helems
    have hidem : (((c0 :: p1) :: ps).map normalizeSegment).map normalizeSegment
        = ((c0 :: p1) :: ps).map normalizeSegment := by
      rw [List.map_map]
      exact List.map_congr_left (fun x _ => normalizeSegment_idem x)
    have e1 : normalize_path p = '/' :: J := by
      simp only [normalize_path]
      rw [hs0, hsplit]
    rw [e1]
    show normalize_path ('/' :: J) = '/' :: J
    simp only [normalize_path]
    rw [stripBoth_cons_pos _ '/' J (by decide), hstrip, hsj, hidem]

/-- C3: every purely-numeric segment of a path becomes `{id}`, every UUID-shaped
segment becomes `{uuid}`, every other segment is unchanged, and `_normalize_path`
is idempotent. -/
theorem normalize_path_spec (p : Str) :
    (∀ g ∈ splitOnChar '/' (stripBoth (fun c => c = '/') p),
        (isNumericSeg g = true → normalizeSegment g = "{id}".toList)
        ∧ (isUuidSeg g = true → normalizeSegment g = "{uuid}".toList)
        ∧ (isNumericSeg g = false → isUuidSeg g = false → normalizeSegment g = g))
    ∧ normalize_path p
        = '/' :: joinWith '/'
            ((splitOnChar '/' (stripBoth (fun c => c = '/') p)).map normalizeSegment)
    ∧ normalize_path (normalize_path p) = normalize_path p := by
  refine ⟨?_, rfl, normalize_path_idem p⟩
  intro g _
  refine ⟨?_, ?_, ?_⟩
  · intro h1
    unfold normalizeSegment
    rw [if_pos h1]
  · intro h2
    have h1 := isUuid_not_numeric g h2
    unfold normalizeSegment
    rw [if_neg (by simp [h1]), if_pos h2]
  · intro h1 h2
    unfold normalizeSegment
    rw [if_neg (by simp [h1]), if_neg (by simp [h2])]

/-- C3 witness: evaluation of `normalize_path_spec` on concrete paths. -/
theorem normalize_path_spec_witness :
    normalizeSegment "123".toList = "{id}".toList
    ∧ normalizeSegment "a1b2c3d4-e5f6-a7b8-c9d0-e1f2a3b4c5d6".toList = "{uuid}".toList
    ∧ normalize_path (normalize_path "/users/123/profile".toList)
        = normalize_path "/users/123/profile".toList := by
  refine ⟨?_, ?_, (normalize_path_spec "/users/123/profile".toList).2.2⟩
  · exact ((normalize_path_spec "/users/123".toList).1 "123".toList (by decide)).1 (by decide)
  · exact ((normalize_path_spec "/x/a1b2c3d4-e5f6-a7b8-c9d0-e1f2a3b4c5d6".toList).1
      "a1b2c3d4-e5f6-a7b8-c9d0-e1f2a3b4c5d6".toList (by decide)).2.1 (by decide)

/-! ## agents/validator/flakiness.py — detect_flaky_tests -/

/-- `results_per_test.setdefault(tr.test_name, []).append(tr.status)` on an
insertion-ordered association list. -/
def recordStatus (d : List (Str × List Status)) (name : Str) (st : Status) :
    List (Str × List Status) :=
  match d with
  | [] => [(name, [st])]
  | (k, v) :: rest =>
      if k = name then (k, v ++ [st]) :: rest
      else (k, v) :: recordStatus rest name st

/-- Association lookup with Python `dict` semantics (`[]` when absent). -/
def lookupStatuses (d : List (Str × List Status)) (name : Str) : List Status :=
  match d with
  | [] => []
  | (k, v) :: rest => if k = name then v else lookupStatuses rest name

/-- The `for i in range(runs)` loop of `detect_flaky_tests`: each iteration is
one executor invocation (`execRun i`) whose results are appended to the
per-test history; the second accumulator component counts invocations. -/
def flakyLoop (execRun : Nat → List TestResult) :
    List Nat → List (Str × List Status) × Nat → List (Str × List Status) × Nat
  | [], acc => acc
  | i :: rest, acc =>
      flakyLoop execRun rest
        ((execRun i).foldl (fun d tr => recordStatus d tr.test_name tr.status) acc.1,
         acc.2 + 1)

/-- `detect_flaky_tests` (the executor is abstracted as the sequence of per-run
result lists; the second component is the number of executor invocations).
`runs < 2` short-circuits to an empty list with no invocation; otherwise the
flaky list keeps exactly the names whose status history has more than one
distinct value (`len(set(statuses)) > 1`). -/
def detect_flaky_tests (runs : Nat) (execRun : Nat → List TestResult) :
    List Str × Nat :=
  if runs < 2 then ([], 0)
  else
    let final := flakyLoop execRun (List.range runs) ([], 0)
    ((final.1.filter (fun kv => 1 < kv.2.dedup.length)).map Prod.fst, final.2)

/-- All statuses recorded for `name` across the runs, in execution order. -/
def statusesOf (runs : Nat) (execRun : Nat → List TestResult) (name : Str) :
    List Status :=
  (((List.range runs).map execRun).flatten.filter
      (fun tr => tr.test_name = name)).map TestResult.status

theorem lookup_recordStatus (d : List (Str × List Status)) (n m : Str) (st : Status) :
    lookupStatuses (recordStatus d n st) m
      = if m = n then lookupStatuses d m ++ [st] else lookupStatuses d m := by
  induction d with
  | nil =>
      show (if n = m then [st] else []) = _
      by_cases h : m = n
      · rw [if_pos h.symm, if_pos h]
        rfl
      · rw [if_neg (fun hh => h hh.symm), if_neg h]
        rfl
  | cons kv rest ih =>
      rcases kv with ⟨k, v⟩
      show lookupStatuses
          (if k = n then (k, v ++ [st]) :: rest else (k, v) :: recordStatus rest n st) m
        = _
      by_cases hk : k = n
      · rw [if_pos hk]
        show (if k = m then v ++ [st] else lookupStatuses rest m) = _
        by_cases hm : k = m
        · have hmn : m = n := hm ▸ hk
          rw [if_pos hm, if_pos hmn]
          show _ = (if k = m then v else lookupStatuses rest m) ++ [st]
          rw [if_pos hm]
        · have hmn : ¬ m = n := fun hh => hm (hk.trans hh.symm)
          rw [if_neg hm, if_neg hmn]
          show _ = (if k = m then v else lookupStatuses rest m)
          rw [if_neg hm]
      · rw [if_neg hk]
        show (if k = m then v else lookupStatuses (recordStatus rest n st) m) = _
        by_cases hm : k = m
        · have hmn : ¬ m = n := fun hh => hk (hm.trans hh)
          rw [if_pos hm, if_neg hmn]
          show _ = (if k = m then v else lookupStatuses rest m)
          rw [if_pos hm]
        · rw [if_neg hm, ih]
          by_cases hmn : m = n
          · rw [if_pos hmn, if_pos hmn]
            show _ = (if k = m then v else lookupStatuses rest m) ++ [st]
            rw [if_neg hm]
          · rw [if_neg hmn, if_neg hmn]
            show _ = (if k = m then v else lookupStatuses rest m)
            rw [if_neg hm]

theorem lookup_foldl_record (trs : List TestResult) (d : List (Str × List Status))
    (name : Str) :
    lookupStatuses
        (trs.foldl (fun d tr => recordStatus d tr.test_name tr.status) d) name
      = lookupStatuses d name
          ++ (trs.filter (fun tr => tr.test_name = name)).map TestResult.status := by
  induction trs generalizing d with
  | nil => simp
  | cons tr rest ih =>
      simp only [List.foldl_cons]
      rw [ih]
      by_cases h : tr.test_name = name
      · rw [List.filter_cons_of_pos (by simp [h])]
        rw [lookup_recordStatus d tr.test_name name tr.status, if_pos h.symm]
        simp
      · rw [List.filter_cons_of_neg (by simp [h])]
        rw [lookup_recordStatus d tr.test_name name tr.status,
          if_neg (fun hh => h (Eq.symm hh))]

theorem lookup_flakyLoop (execRun : Nat → List TestResult) (l : List Nat)
    (acc : List (Str × List Status) × Nat) (name : Str) :
    lookupStatuses (flakyLoop execRun l acc).1 name
      = lookupStatuses acc.1 name
          ++ ((l.map execRun).flatten.filter
                (fun tr => tr.test_name = name)).map TestResult.status := by
  induction l generalizing acc with
  | nil => simp [flakyLoop]
  | cons i rest ih =>
      simp only [flakyLoop]
      rw [ih]
      simp [lookup_foldl_record]

theorem flakyLoop_count (execRun : Nat → List TestResult) (l : List Nat)
    (acc : List (Str × List Status) × Nat) :
    (flakyLoop execRun l acc).2 = acc.2 + l.length := by
  induction l generalizing acc with
  | nil => simp [flakyLoop]
  | cons i rest ih =>
      simp only [flakyLoop]
      rw [ih]
      simp
      omega

theorem mem_keys_recordStatus (d : List (Str × List Status)) (n m : Str)
    (st : Status) :
    m ∈ (recordStatus d n st).map Prod.fst ↔ m = n ∨ m ∈ d.map Prod.fst := by
  induction d with
  | nil => simp [recordStatus]
  | cons kv rest ih =>
      rcases kv with ⟨k, v⟩
      by_cases hk : k = n
      · subst hk
        have e : recordStatus ((k, v) :: rest) k st = (k, v ++ [st]) :: rest := by
          simp [recordStatus]
        rw [e]
        simp
      · have e : recordStatus ((k, v) :: rest) n st
            = (k, v) :: recordStatus rest n st := by
          simp [recordStatus, hk]
        rw [e]
        simp [ih]
        tauto

theorem nodup_keys_recordStatus (d : List (Str × List Status)) (n : Str)
    (st : Status) (h : (d.map Prod.fst).Nodup) :
    ((recordStatus d n st).map Prod.fst).Nodup := by
  induction d with
  | nil => simp [recordStatus]
  | cons kv rest ih =>
      rcases kv with ⟨k, v⟩
      simp only [List.map_cons, List.nodup_cons] at h
      by_cases hk : k = n
      · subst hk
        have e : recordStatus ((k, v) :: rest) k st = (k, v ++ [st]) :: rest := by
          simp [recordStatus]
        rw [e]
        simp only [List.map_cons, List.nodup_cons]
        exact h
      · have e : recordStatus ((k, v) :: rest) n st
            = (k, v) :: recordStatus rest n st := by
          simp [recordStatus, hk]
        rw [e]
        simp only [List.map_cons, List.nodup_cons]
        refine ⟨?_, ih h.2⟩
        rw [mem_keys_recordStatus]
        push_neg
        exact ⟨hk, h.1⟩

theorem nodup_keys_foldl_record (trs : List TestResult)
    (d : List (Str × List Status)) (h : (d.map Prod.fst).Nodup) :
    (((trs.foldl (fun d tr => recordStatus d tr.test_name tr.status) d)).map
        Prod.fst).Nodup := by
  induction trs generalizing d with
  | nil => exact h
  | cons tr rest ih =>
      simp only [List.foldl_cons]
      exact ih _ (nodup_keys_recordStatus d tr.test_name tr.status h)

theorem nodup_keys_flakyLoop (execRun : Nat → List TestResult) (l : List Nat)
    (acc : List (Str × List Status) × Nat) (h : (acc.1.map Prod.fst).Nodup) :
    ((flakyLoop execRun l acc).1.map Prod.fst).Nodup := by
  induction l generalizing acc with
  | nil => exact h
  | cons i rest ih =>
      simp only [flakyLoop]
      exact ih _ (nodup_keys_foldl_record _ _ h)

theorem lookup_eq_nil_of_not_mem (d : List (Str × List Status)) (name : Str)
    (h : ¬ name ∈ d.map Prod.fst) : lookupStatuses d name = [] := by
  induction d with
  | nil => rfl
  | cons kv rest ih =>
      rcases kv with ⟨k, v⟩
      simp only [List.map_cons, List.mem_cons] at h
      push_neg at h
      simp only [lookupStatuses, if_neg (fun hh => h.1 (Eq.symm hh))]
      exact ih h.2

theorem lookup_of_mem_nodup (d : List (Str × List Status))
    (kv : Str × List Status) (hmem : kv ∈ d) (h : (d.map Prod.fst).Nodup) :
    lookupStatuses d kv.1 = kv.2 := by
  induction d with
  | nil => simp at hmem
  | cons hd rest ih =>
      rcases hd with ⟨k, v⟩
      simp only [List.map_cons, List.nodup_cons] at h
      rcases List.mem_cons.1 hmem with heq | hmem2
      · subst heq
        simp [lookupStatuses]
      · have hk : ¬ k = kv.1 := by
          intro hh
          exact h.1 (hh ▸ (List.mem_map_of_mem Prod.fst hmem2))
        simp only [lookupStatuses, if_neg hk]
        exact ih hmem2 h.2

/-- C6: with fewer than 2 runs `detect_flaky_tests` returns an empty list with
zero executor invocations; otherwise it invokes the executor exactly `runs`
times (sequentially, one per loop iteration) and returns exactly the test names
whose recorded statuses across the runs contain more than one distinct value. -/
theorem detect_flaky_tests_spec (runs : Nat) (execRun : Nat → List TestResult) :
    (runs < 2 → detect_flaky_tests runs execRun = ([], 0))
    ∧ (2 ≤ runs →
        (detect_flaky_tests runs execRun).2 = runs
        ∧ ∀ name, name ∈ (detect_flaky_tests runs execRun).1
            ↔ 1 < (statusesOf runs execRun name).dedup.length) := by
  constructor
  · intro h
    simp [detect_flaky_tests, h]
  · intro h
    have hnot : ¬ runs < 2 := by omega
    constructor
    · simp only [detect_flaky_tests, if_neg hnot]
      rw [flakyLoop_count]
      simp
    · intro name
      simp only [detect_flaky_tests, if_neg hnot]
      set d := (flakyLoop execRun (List.range runs) ([], 0)).1 with hd
      have hnodup : (d.map Prod.fst).Nodup := by
        rw [hd]
        exact nodup_keys_flakyLoop _ _ _ (by simp)
      have hlook : lookupStatuses d name = statusesOf runs execRun name := by
        rw [hd, lookup_flakyLoop]
        simp [statusesOf, lookupStatuses]
      constructor
      · intro hmem
        rcases List.mem_map.1 hmem with ⟨kv, hkvf, hfst⟩
        rcases List.mem_filter.1 hkvf with ⟨hkvd, hP⟩
        have h2 : lookupStatuses d name = kv.2 := by
          rw [← hfst]
          exact lookup_of_mem_nodup d kv hkvd hnodup
        rw [← hlook, h2]
        simpa using hP
      · intro hgt
        by_cases hmemk : name ∈ d.map Prod.fst
        · rcases List.mem_map.1 hmemk with ⟨kv, hkvd, hfst⟩
          have h2 : lookupStatuses d name = kv.2 := by
            rw [← hfst]
            exact lookup_of_mem_nodup d kv hkvd hnodup
          apply List.mem_map.2
          refine ⟨kv, List.mem_filter.2 ⟨hkvd, ?_⟩, hfst⟩
          have h3 : 1 < kv.2.dedup.length := by
            rw [← h2, hlook]
            exact hgt
          simpa using h3
        · exfalso
          have h0 : lookupStatuses d name = [] := lookup_eq_nil_of_not_mem d name hmemk
          rw [hlook] at h0
          rw [h0] at hgt
          simp at hgt

/-- Concrete three-run executor trace for the C6 witness: test `t` is flaky
(passed, passed, failed), test `u` is stable (passed, passed, passed). -/
def flakySampleRun (i : Nat) : List TestResult :=
  [ { test_name := "t".toList,
      status := if i = 2 then Status.failed else Status.passed },
    { test_name := "u".toList, status := Status.passed } ]

/-- C6 witness: `detect_flaky_tests` on the concrete trace flags `t` and not
`u` with 3 invocations; with a single run nothing is executed. -/
theorem detect_flaky_tests_spec_witness :
    (detect_flaky_tests 3 flakySampleRun).2 = 3
    ∧ "t".toList ∈ (detect_flaky_tests 3 flakySampleRun).1
    ∧ ¬ "u".toList ∈ (detect_flaky_tests 3 flakySampleRun).1
    ∧ detect_flaky_tests 1 flakySampleRun = ([], 0) := by
  refine ⟨((detect_flaky_tests_spec 3 flakySampleRun).2 (by omega)).1, ?_, ?_,
    (detect_flaky_tests_spec 1 flakySampleRun).1 (by omega)⟩
  · exact (((detect_flaky_tests_spec 3 flakySampleRun).2 (by omega)).2
      "t".toList).2 (by decide)
  · intro hmem
    exact absurd ((((detect_flaky_tests_spec 3 flakySampleRun).2 (by omega)).2
      "u".toList).1 hmem) (by decide)

/-! ## agents/analyzer/pattern_extractor.py — common imports of the style guide -/

/-- models/style_guide.py `ImportPattern` (fields relevant to the claims). -/
structure ImportPattern where
  module : Str
  names : List Str := []
  is_from_import : Bool := false
deriving DecidableEq, Repr

/-- models/style_guide.py `GoldenExample` (fields relevant to the claims). -/
structure GoldenExample where
  imports : List ImportPattern := []
deriving DecidableEq, Repr

/-- The counter key of `_build_style_guide`:
`f"{imp.module}:{','.join(imp.names)}" if imp.is_from_import else imp.module`. -/
def importKey (imp : ImportPattern) : Str :=
  if imp.is_from_import then imp.module ++ ':' :: joinWith ',' imp.names
  else imp.module

/-- `all_imports`: the concatenation of every example's import list. -/
def allImports (examples : List GoldenExample) : List ImportPattern :=
  (examples.map GoldenExample.imports).flatten

/-- The `for imp in all_imports` loop of `_build_style_guide`: keep `imp` when
`import_counter[key] >= threshold and key not in seen_imports`. -/
def dedupCommonImports (all : List ImportPattern) (thr : Nat) :
    List ImportPattern → List Str → List ImportPattern
  | [], _ => []
  | imp :: rest, seen =>
      let key := importKey imp
      if thr ≤ all.countP (fun j => decide (importKey j = key)) ∧ ¬ key ∈ seen then
        imp :: dedupCommonImports all thr rest (seen ++ [key])
      else
        dedupCommonImports all thr rest seen

/-- `common_imports` of `AnalyzerAgent._build_style_guide`:
threshold `max(1, len(examples) // 2)` over occurrence counts of the key. -/
def buildCommonImports (examples : List GoldenExample) : List ImportPattern :=
  dedupCommonImports (allImports examples) (max 1 (examples.length / 2))
    (allImports examples) []

theorem dedupCommonImports_mem_key (all : List ImportPattern) (thr : Nat)
    (k : Str) :
    ∀ rest seen,
      (∃ imp ∈ dedupCommonImports all thr rest seen, importKey imp = k)
        ↔ (¬ k ∈ seen
            ∧ thr ≤ all.countP (fun j => decide (importKey j = k))
            ∧ ∃ imp ∈ rest, importKey imp = k) := by
  intro rest
  induction rest with
  | nil => intro seen; simp [dedupCommonImports]
  | cons imp rest ih =>
      intro seen
      simp only [dedupCommonImports]
      by_cases hC : thr ≤ all.countP (fun j => decide (importKey j = importKey imp))
          ∧ ¬ importKey imp ∈ seen
      · rw [if_pos hC]
        by_cases hk : importKey imp = k
        · subst hk
          constructor
          · intro _
            exact ⟨hC.2, hC.1, imp, List.mem_cons_self imp rest, rfl⟩
          · intro _
            exact ⟨imp, List.mem_cons_self _ _, rfl⟩
        · constructor
          · intro hex
            rcases hex with ⟨x, hx, hxk⟩
            rcases List.mem_cons.1 hx with hx1 | hx2
            · exact absurd (hx1 ▸ hxk) hk
            · have := (ih (seen ++ [importKey imp])).1 ⟨x, hx2, hxk⟩
              refine ⟨?_, this.2.1, ?_⟩
              · intro hks
                exact this.1 (List.mem_append_left _ hks)
              · rcases this.2.2 with ⟨y, hy, hyk⟩
                exact ⟨y, List.mem_cons_of_mem imp hy, hyk⟩
          · intro hr
            rcases hr.2.2 with ⟨y, hy, hyk⟩
            rcases List.mem_cons.1 hy with hy1 | hy2
            · exact absurd (hy1 ▸ hyk) hk
            · have hnk : ¬ k ∈ seen ++ [importKey imp] := by
                intro hmem
                rcases List.mem_append.1 hmem with hm | hm
                · exact hr.1 hm
                · simp at hm
                  exact hk hm.symm
              rcases ((ih (seen ++ [importKey imp])).2
                ⟨hnk, hr.2.1, y, hy2, hyk⟩) with ⟨z, hz, hzk⟩
              exact ⟨z, List.mem_cons_of_mem imp hz, hzk⟩
      · rw [if_neg hC]
        rw [ih seen]
        constructor
        · intro hr
          rcases hr.2.2 with ⟨y, hy, hyk⟩
          exact ⟨hr.1, hr.2.1, y, List.mem_cons_of_mem imp hy, hyk⟩
        · intro hr
          rcases hr.2.2 with ⟨y, hy, hyk⟩
          rcases List.mem_cons.1 hy with hy1 | hy2
          · exfalso
            apply hC
            have hik : importKey imp = k := by
              rw [← hy1]
              exact hyk
            rw [hik]
            exact ⟨hr.2.1, hr.1⟩
          · exact ⟨hr.1, hr.2.1, y, hy2, hyk⟩

theorem dedupCommonImports_distinct (all : List ImportPattern) (thr : Nat) :
    ∀ rest seen,
      (∀ x ∈ dedupCommonImports all thr rest seen, ¬ importKey x ∈ seen)
      ∧ (dedupCommonImports all thr rest seen).Pairwise
          (fun a b => importKey a ≠ importKey b) := by
  intro rest
  induction rest with
  | nil => intro seen; simp [dedupCommonImports]
  | cons imp rest ih =>
      intro seen
      simp only [dedupCommonImports]
      by_cases hC : thr ≤ all.countP (fun j => decide (importKey j = importKey imp))
          ∧ ¬ importKey imp ∈ seen
      · rw [if_pos hC]
        constructor
        · intro x hx
          rcases List.mem_cons.1 hx with hx1 | hx2
          · rw [hx1]
            exact hC.2
          · intro hxs
            exact (ih (seen ++ [importKey imp])).1 x hx2 (List.mem_append_left _ hxs)
        · rw [List.pairwise_cons]
          constructor
          · intro x hx heq
            exact (ih (seen ++ [importKey imp])).1 x hx
              (List.mem_append_right _ (by simp [heq]))
          · exact (ih (seen ++ [importKey imp])).2
      · rw [if_neg hC]
        exact ih seen

/-- C5 (amended): an import is represented in `common_imports` exactly when its
key occurs in the concatenated import lists at least `max(1, n // 2)` times
(`n` = number of examples) — an occurrence count, not a number of distinct
files — and `common_imports` keeps one entry per key (first occurrence). -/
theorem common_imports_spec (examples : List GoldenExample) :
    (∀ k, (∃ imp ∈ buildCommonImports examples, importKey imp = k)
        ↔ ((∃ imp ∈ allImports examples, importKey imp = k)
            ∧ max 1 (examples.length / 2)
                ≤ (allImports examples).countP (fun j => decide (importKey j = k))))
    ∧ (buildCommonImports examples).Pairwise (fun a b => importKey a ≠ importKey b) := by
  constructor
  · intro k
    rw [buildCommonImports, dedupCommonImports_mem_key]
    simp
    tauto
  · exact (dedupCommonImports_distinct (allImports examples)
      (max 1 (examples.length / 2)) (allImports examples) []).2

/-- An `import os`-style pattern occurring in one single example file. -/
def exImportOs : ImportPattern := { module := "os".toList }

/-- Three parsed examples; only the first one imports `os`. -/
def exGolden3 : List GoldenExample :=
  [ { imports := [exImportOs] }, { imports := [] }, { imports := [] } ]

/-- C5 counterexample: with three example files the threshold is
`max(1, 3 // 2) = 1`, so an import that appears in only one of the three files
(fewer than half) is nevertheless included in `common_imports`. -/
theorem common_imports_counterexample :
    exImportOs ∈ buildCommonImports exGolden3
    ∧ 2 * (exGolden3.countP (fun e =>
        e.imports.any (fun i => decide (importKey i = importKey exImportOs))))
      < exGolden3.length := by
  decide

/-- C5 witness: evaluation of `common_imports_spec` on the concrete examples. -/
theorem common_imports_spec_witness :
    ∃ imp ∈ buildCommonImports exGolden3, importKey imp = "os".toList := by
  exact ((common_imports_spec exGolden3).1 "os".toList).2 (by decide)

/-! ## agents/validator/quality.py — ValidatorAgent._score_test -/

/-- `GeneratedTest.test_type` literal type. -/
inductive TestType where
  | api | ui | integration | unit
deriving DecidableEq, Repr

/-- models/test_model.py `GeneratedTest` (fields relevant to the claims). -/
structure GeneratedTest where
  name : Str
  source_code : Str
  test_type : TestType := TestType.api
deriving DecidableEq, Repr

/-- models/results.py `QualityScore` (floats as rationals). -/
structure QualityScore where
  test_name : Str
  assertion_count : Nat
  assertion_quality : ℚ
  coverage_breadth : ℚ
  readability : ℚ
  overall_score : ℚ
  issues : List Str
  suggestions : List Str
deriving DecidableEq, Repr

/-- One position of the scan for regex `\bassert\b`: the literal `assert`
starting here, not preceded and not followed by a word character.  (With the
word boundaries two matches can never overlap, so counting every matching
position equals `len(re.findall(...))`.) -/
def assertWordAt (prevIsWord : Bool) (s : Str) : Bool :=
  !prevIsWord && "assert".toList.isPrefixOf s
    && !(match s.drop 6 with
         | [] => false
         | d :: _ => isWordChar d)

def countAssertAux (prevIsWord : Bool) : Str → Nat
  | [] => 0
  | c :: rest =>
      (if assertWordAt prevIsWord (c :: rest) then 1 else 0)
        + countAssertAux (isWordChar c) rest

/-- `len(re.findall(r"\bassert\b", code))`. -/
def countAssert (code : Str) : Nat := countAssertAux false code

/-- `re.search(r"status_code", code)`. -/
def hasStatusCheck (code : Str) : Bool := containsSub "status_code".toList code

/-- `re.search(r"\.json\(\)|response\.data|response\.text|response\.content", code)`. -/
def hasBodyCheck (code : Str) : Bool :=
  containsSub ".json()".toList code || containsSub "response.data".toList code
    || containsSub "response.text".toList code
    || containsSub "response.content".toList code

/-- `re.search(r"headers", code)`. -/
def hasHeadersCheck (code : Str) : Bool := containsSub "headers".toList code

/-- `re.search(r"pytest\.raises|Exception|Error", code)`. -/
def hasExceptionCheck (code : Str) : Bool :=
  containsSub "pytest.raises".toList code || containsSub "Exception".toList code
    || containsSub "Error".toList code

/-- Rest of the string after the first occurrence of `pat` (`none` if absent). -/
def findSub (pat : Str) : Str → Option Str
  | [] => if pat.isPrefixOf ([] : Str) then some [] else none
  | s@(_ :: rest) =>
      if pat.isPrefixOf s then some (s.drop pat.length)
      else findSub pat rest

/-- Two non-overlapping occurrences of `pat`. -/
def hasDoubleSub (pat : Str) (s : Str) : Bool :=
  match findSub pat s with
  | some rest => containsSub pat rest
  | none => false

/-- A single-quote character, kept out of source literals. -/
def squote : Char := Char.ofNat 39

/-- Regex `""".*?"""|\x27\x27\x27.*?\x27\x27\x27` with DOTALL: the code holds a
matched pair of triple quotes of either kind. -/
def hasDocstring (code : Str) : Bool :=
  hasDoubleSub "\"\"\"".toList code || hasDoubleSub [squote, squote, squote] code

/-- `len(code.strip().split("\n"))`. -/
def lineCount (code : Str) : Nat := (splitOnChar '\n' (stripWs code)).length

/-- `re.search(r"http://localhost:\d+", code)`. -/
def hasLocalhostUrl : Str → Bool
  | [] => false
  | s@(_ :: rest) =>
      ("http://localhost:".toList.isPrefixOf s
        && (match s.drop 17 with
            | [] => false
            | d :: _ => d.isDigit))
      || hasLocalhostUrl rest

/-- `ValidatorAgent._score_test` (floats as exact rationals). -/
def score_test (test : GeneratedTest) : QualityScore :=
  let code := test.source_code
  let assertion_count := countAssert code
  let aq0 : ℚ :=
    if assertion_count = 0 then 0
    else if assertion_count = 1 then 5/10
    else min 1 ((assertion_count : ℚ) / 4)
  let issues1 : List Str :=
    if assertion_count = 0 then ["No assertions found".toList] else []
  let suggestions1 : List Str :=
    if assertion_count = 1 then ["Consider adding more assertions".toList] else []
  let has_status := hasStatusCheck code
  let statusPenalty := !has_status && decide (test.test_type = TestType.api)
  let aq : ℚ := if statusPenalty then aq0 * (7/10) else aq0
  let issues2 := issues1
    ++ (if statusPenalty then ["Missing status code assertion".toList] else [])
  let has_body := hasBodyCheck code
  let suggestions2 := suggestions1
    ++ (if !has_body && decide (test.test_type = TestType.api) then
          ["Consider asserting response body content".toList] else [])
  let breadth : ℚ :=
    ((if has_status then (1 : ℚ) else 0) + (if has_body then 1 else 0)
      + (if hasHeadersCheck code then 1 else 0)
      + (if hasExceptionCheck code then 1 else 0)) / 4
  let line_count := lineCount code
  let has_docstring := hasDocstring code
  let r1 : ℚ := if has_docstring then 7/10 + 1/10 else 7/10
  let r2 : ℚ := if 30 < line_count then r1 - 1/10 else r1
  let suggestions3 := suggestions2
    ++ (if 30 < line_count then ["Test is quite long, consider splitting".toList] else [])
  let r3 : ℚ := if line_count < 3 then r2 - 2/10 else r2
  let issues3 := issues2
    ++ (if line_count < 3 then ["Test seems too short".toList] else [])
  let readability : ℚ := max 0 (min 1 r3)
  let suggestions4 := suggestions3
    ++ (if hasLocalhostUrl code then
          ["Consider using a base_url fixture instead of hardcoded URL".toList] else [])
  let overall : ℚ := aq * (4/10) + breadth * (3/10) + readability * (3/10)
  { test_name := test.name
    assertion_count := assertion_count
    assertion_quality := aq
    coverage_breadth := breadth
    readability := readability
    overall_score := overall
    issues := issues3
    suggestions := suggestions4 }

/-- C4 (amended): zero `assert` occurrences force assertion-quality 0 and the
"No assertions found" issue; an API test whose source has at least 4 `assert`
occurrences, a status-code check, a response-body check, and a docstring, with
a body of at least 3 and under 30 lines, scores overall at least 0.79 — the
tight bound (not the claimed 0.8) when neither a headers check nor an
exception check is present. -/
theorem score_test_spec (t : GeneratedTest) :
    (countAssert t.source_code = 0 →
      (score_test t).assertion_quality = 0
      ∧ "No assertions found".toList ∈ (score_test t).issues)
    ∧ (t.test_type = TestType.api →
       4 ≤ countAssert t.source_code →
       hasStatusCheck t.source_code = true →
       hasBodyCheck t.source_code = true →
       hasDocstring t.source_code = true →
       3 ≤ lineCount t.source_code →
       lineCount t.source_code < 30 →
       (79 : ℚ)/100 ≤ (score_test t).overall_score) := by
  constructor
  · intro h0
    simp only [score_test, h0]
    norm_num
  · intro htype hcnt hstat hbody hdoc hl3 hl30
    have hne0 : ¬ countAssert t.source_code = 0 := by omega
    have hne1 : ¬ countAssert t.source_code = 1 := by omega
    have hmin : min (1 : ℚ) ((countAssert t.source_code : ℚ) / 4) = 1 := by
      apply min_eq_left
      rw [le_div_iff₀ (by norm_num)]
      norm_num
      exact_mod_cast hcnt
    have hnl30 : ¬ 30 < lineCount t.source_code := by omega
    have hnl3 : ¬ lineCount t.source_code < 3 := by omega
    simp only [score_test, hne0, hne1, hmin, hstat, hdoc, hnl30, hnl3,
      if_false, if_true, Bool.not_true, Bool.false_and, Bool.false_eq_true]
    have hmax : max (0 : ℚ) (min 1 (7/10 + 1/10)) = 8/10 := by norm_num
    rw [hmax]
    by_cases hh : hasHeadersCheck t.source_code = true <;>
      by_cases he : hasExceptionCheck t.source_code = true <;>
        simp [hh, he, hbody] <;> norm_num

/-- Concrete API test with exactly 4 asserts, a status-code check, a body
check, a docstring, 7 lines, and no headers or exception signal. -/
def sample79Test : GeneratedTest :=
  { name := "test_users".toList
    source_code := ("def test_users(base_url):\n    \"\"\"Check the users endpoint.\"\"\"\n    r = requests.get(base_url)\n    assert r.status_code == 200\n    assert r.json() != None\n    assert len(r.json()) == 2\n    assert r.json() != []").toList
    test_type := TestType.api }

/-- C4 counterexample: `sample79Test` satisfies every hypothesis of the claim
yet its overall score is exactly 0.79, which is less than 0.8. -/
theorem score_test_counterexample :
    (sample79Test.test_type = TestType.api
      ∧ 4 ≤ countAssert sample79Test.source_code
      ∧ hasStatusCheck sample79Test.source_code = true
      ∧ hasBodyCheck sample79Test.source_code = true
      ∧ hasDocstring sample79Test.source_code = true
      ∧ 3 ≤ lineCount sample79Test.source_code
      ∧ lineCount sample79Test.source_code < 30)
    ∧ (score_test sample79Test).overall_score = 79/100
    ∧ ¬ ((8 : ℚ)/10 ≤ (score_test sample79Test).overall_score) := by
  have hcnt : countAssert sample79Test.source_code = 4 := by decide
  have hstat : hasStatusCheck sample79Test.source_code = true := by decide
  have hbody : hasBodyCheck sample79Test.source_code = true := by decide
  have hdoc : hasDocstring sample79Test.source_code = true := by decide
  have hh : hasHeadersCheck sample79Test.source_code = false := by decide
  have he : hasExceptionCheck sample79Test.source_code = false := by decide
  have hlc : lineCount sample79Test.source_code = 7 := by decide
  have hurl : hasLocalhostUrl sample79Test.source_code = false := by decide
  have hov : (score_test sample79Test).overall_score = 79/100 := by
    simp only [score_test, hcnt, hstat, hbody, hdoc, hh, he, hlc, hurl]
    norm_num
  refine ⟨⟨rfl, by rw [hcnt], hstat, hbody, hdoc, by rw [hlc]; omega, by rw [hlc]; omega⟩,
    hov, ?_⟩
  rw [hov]
  norm_num

/-- Concrete API test without a single assertion. -/
def sampleNoAssert : GeneratedTest :=
  { name := "test_empty".toList
    source_code := "def test_empty():\n    pass".toList
    test_type := TestType.api }

/-- C4 witness: evaluation of `score_test_spec` on the two concrete tests. -/
theorem score_test_spec_witness :
    ((score_test sampleNoAssert).assertion_quality = 0
      ∧ "No assertions found".toList ∈ (score_test sampleNoAssert).issues)
    ∧ (79 : ℚ)/100 ≤ (score_test sample79Test).overall_score := by
  exact ⟨(score_test_spec sampleNoAssert).1 (by decide),
    (score_test_spec sample79Test).2 rfl (by decide) (by decide) (by decide)
      (by decide) (by decide) (by decide)⟩

/-! ## agents/executor/runner.py — ExecutorAgent._parse_pytest_output -/

/-- The alternation `PASSED|FAILED|ERROR|SKIPPED` matched as a literal prefix,
lower-cased into the status type. -/
def matchStatusToken (s : Str) : Option Status :=
  if "PASSED".toList.isPrefixOf s then some Status.passed
  else if "FAILED".toList.isPrefixOf s then some Status.failed
  else if "ERROR".toList.isPrefixOf s then some Status.error
  else if "SKIPPED".toList.isPrefixOf s then some Status.skipped
  else none

/-- One attempt of `::(\w+)\s+(PASSED|FAILED|ERROR|SKIPPED)\s*(\[.*\])?` at the
head of the string: literal `::`, a non-empty maximal word run, a non-empty
whitespace run, then a status token.  The trailing `\s*(\[.*\])?` always
matches and binds nothing the parser uses. -/
def tryColons (s : Str) : Option (Str × Status) :=
  match s with
  | ':' :: ':' :: rest =>
      let name := rest.takeWhile isWordChar
      let after := rest.dropWhile isWordChar
      if name.isEmpty then none
      else if (after.takeWhile isSpaceChar).isEmpty then none
      else
        match matchStatusToken (after.dropWhile isSpaceChar) with
        | some st => some (name, st)
        | none => none
  | _ => none

/-- `re.match(r".*?::(\w+)\s+(PASSED|FAILED|ERROR|SKIPPED)\s*(\[.*\])?", line)`:
the lazy prefix tries every start position from the left. -/
def scanTestLine : Str → Option (Str × Status)
  | [] => none
  | s@(_ :: rest) =>
      match tryColons s with
      | some r => some r
      | none => scanTestLine rest

/-- The lazy `.*?::(\w+)` tail of the short-summary regex: first `::` followed
by a non-empty word run. -/
def scanColonsName : Str → Option Str
  | [] => none
  | ':' :: ':' :: r2 =>
      let name := r2.takeWhile isWordChar
      if name.isEmpty then scanColonsName (':' :: r2) else some name
  | _ :: rest => scanColonsName rest

/-- `re.match(r"FAILED\s+.*?::(\w+)", line)`. -/
def matchFailedSummary (line : Str) : Option Str :=
  if "FAILED".toList.isPrefixOf line then
    let rest := line.drop 6
    if (rest.takeWhile isSpaceChar).isEmpty then none
    else scanColonsName (rest.dropWhile isSpaceChar)
  else none

/-- One attempt of the banner `={3,}\s*FAILURES\s*={3,}` at the head of the
string; returns the rest after the banner. -/
def tryFailuresBanner (s : Str) : Option Str :=
  match s with
  | '=' :: '=' :: '=' :: rest =>
      let afterEq := rest.dropWhile (fun c => c = '=')
      let afterWs := afterEq.dropWhile isSpaceChar
      if "FAILURES".toList.isPrefixOf afterWs then
        let afterWs2 := (afterWs.drop 8).dropWhile isSpaceChar
        match afterWs2 with
        | '=' :: '=' :: '=' :: r2 => some (r2.dropWhile (fun c => c = '='))
        | _ => none
      else none
  | _ => none

/-- The rest of the string after the first banner occurrence. -/
def splitAfterBanner : Str → Option Str
  | [] => none
  | s@(_ :: rest) =>
      match tryFailuresBanner s with
      | some after => some after
      | none => splitAfterBanner rest

/-- The text strictly before the first banner occurrence (everything when
there is none). -/
def upToBanner : Str → Str
  | [] => []
  | s@(c :: rest) =>
      match tryFailuresBanner s with
      | some _ => []
      | none => c :: upToBanner rest

/-- `re.split(r"={3,}\s*FAILURES\s*={3,}", stdout)[1]`: the piece between the
first banner and the next one (or the end); `none` when fewer than two pieces
exist. -/
def failuresSection (stdout : Str) : Option Str :=
  match splitAfterBanner stdout with
  | some after => some (upToBanner after)
  | none => none

/-- `\s*_{3,}\n` — the closing delimiter of a failure block header; returns
the rest after the newline. -/
def tryCloseBanner (s : Str) : Option Str :=
  match s.dropWhile isSpaceChar with
  | '_' :: '_' :: '_' :: r =>
      match r.dropWhile (fun c => c = '_') with
      | '\n' :: r2 => some r2
      | _ => none
  | _ => none

/-- Greedy `(\w+)` with backtracking against the closing `\s*_{3,}\n`: try the
longest name prefix of the word run first. -/
def nameSplitSearch (wrun : Str) (afterw : Str) : Nat → Option (Str × Str)
  | 0 => none
  | Nat.succ k2 =>
      match tryCloseBanner (wrun.drop (Nat.succ k2) ++ afterw) with
      | some rest => some (wrun.take (Nat.succ k2), rest)
      | none => nameSplitSearch wrun afterw k2

/-- One attempt of `_{3,}\s*(\w+)\s*_{3,}\n` at the head of the string;
returns the captured name and the rest after the newline. -/
def tryUnderBanner (s : Str) : Option (Str × Str) :=
  match s with
  | '_' :: '_' :: '_' :: r =>
      let afterWs := (r.dropWhile (fun c => c = '_')).dropWhile isSpaceChar
      let wrun := afterWs.takeWhile isWordChar
      let afterw := afterWs.dropWhile isWordChar
      if wrun.isEmpty then none
      else nameSplitSearch wrun afterw wrun.length
  | _ => none

/-- The lazy body `(.*?)(?=_{3,}|\Z)` with DOTALL: everything up to the first
triple underscore (or the end); returns the body and the remaining text. -/
def takeUntilTripleUnderscore : Str → Str × Str
  | [] => ([], [])
  | s@(c :: rest) =>
      if "___".toList.isPrefixOf s then ([], s)
      else
        let br := takeUntilTripleUnderscore rest
        (c :: br.1, br.2)

/-- `re.finditer(r"_{3,}\s*(\w+)\s*_{3,}\n(.*?)(?=_{3,}|\Z)", section, DOTALL)`,
with the `.strip()` applied to each body.  Fuelled recursion: every step
advances at least one character, so `section.length` fuel suffices. -/
def collectFailureBlocksF : Nat → Str → List (Str × Str)
  | 0, _ => []
  | _, [] => []
  | Nat.succ fuel, s@(_ :: rest) =>
      match tryUnderBanner s with
      | some nr =>
          let br := takeUntilTripleUnderscore nr.2
          (nr.1, stripWs br.1) :: collectFailureBlocksF fuel br.2
      | none => collectFailureBlocksF fuel rest

def collectFailureBlocks (s : Str) : List (Str × Str) :=
  collectFailureBlocksF s.length s

/-- Python `dict` assignment `d[k] = v` on an insertion-ordered
association list. -/
def assocUpdate (d : List (Str × Str)) (k v : Str) : List (Str × Str) :=
  match d with
  | [] => [(k, v)]
  | (k2, v2) :: rest =>
      if k2 = k then (k2, v) :: rest else (k2, v2) :: assocUpdate rest k v

/-- The `failure_details` dictionary of `_parse_pytest_output`. -/
def extractFailureDetails (stdout : Str) : List (Str × Str) :=
  match failuresSection stdout with
  | some sec => (collectFailureBlocks sec).foldl (fun d nb => assocUpdate d nb.1 nb.2) []
  | none => []

/-- `failure_details.get(name, "")`. -/
def lookupDetail (d : List (Str × Str)) (name : Str) : Str :=
  match d with
  | [] => []
  | (k, v) :: rest => if k = name then v else lookupDetail rest name

/-- The body of the first parsing loop of `_parse_pytest_output`: a per-test
status line, deduplicated by name (first occurrence wins), failure detail
attached when the status is FAILED. -/
def pass1Step (stdout stderr : Str) (failure_details : List (Str × Str))
    (acc : List TestResult × List Str) (line : Str) : List TestResult × List Str :=
  match scanTestLine (stripWs line) with
  | some ns =>
      if ¬ ns.1 ∈ acc.2 then
        (acc.1 ++ [ { test_name := ns.1, status := ns.2,
                      error_message :=
                        some (if ns.2 = Status.failed
                              then lookupDetail failure_details ns.1 else []),
                      stdout := stdout, stderr := stderr } ],
         acc.2 ++ [ns.1])
      else acc
  | none => acc

/-- The body of the short-summary fallback loop of `_parse_pytest_output`:
`FAILED location::name` lines, status failed, no error message. -/
def pass2Step (stdout stderr : Str)
    (acc : List TestResult × List Str) (line : Str) : List TestResult × List Str :=
  match matchFailedSummary (stripWs line) with
  | some name =>
      if ¬ name ∈ acc.2 then
        (acc.1 ++ [ { test_name := name, status := Status.failed,
                      stdout := stdout, stderr := stderr } ],
         acc.2 ++ [name])
      else acc
  | none => acc

/-- `ExecutorAgent._parse_pytest_output`: per-test status lines, then the
short-summary fallback, then a single synthesized suite-level result whose
status is failed iff the transcript contains a FAILED or ERROR token. -/
def parse_pytest_output (stdout stderr : Str) : List TestResult :=
  let failure_details := extractFailureDetails stdout
  let lines := splitOnChar '\n' stdout
  let pass1 := lines.foldl (pass1Step stdout stderr failure_details) ([], [])
  let results1 := pass1.1
  let results2 :=
    if results1 = [] then
      (lines.foldl (pass2Step stdout stderr) ([], pass1.2)).1
    else results1
  if results2 = [] then
    [ { test_name := "<suite>".toList,
        status :=
          if containsSub "FAILED".toList stdout
              || containsSub "ERROR".toList stdout then Status.failed
          else Status.passed,
        stdout := stdout, stderr := stderr } ]
  else results2

theorem foldl_congr_id {α β : Type} (f : α → β → α) (l : List β) (acc : α)
    (h : ∀ b ∈ l, ∀ a, f a b = a) : l.foldl f acc = acc := by
  induction l generalizing acc with
  | nil => rfl
  | cons x xs ih =>
      rw [List.foldl_cons, h x (List.mem_cons_self x xs)]
      exact ih acc (fun b hb a => h b (List.mem_cons_of_mem x hb) a)

theorem ite_nil_ne_nil (x : TestResult) (l : List TestResult) :
    (if l = [] then [x] else l) ≠ [] := by
  by_cases h : l = [] <;> simp [h]

/-- C2: the parser returns a non-empty list for every pair of transcripts, and
when no per-test status line and no FAILED short-summary line matches, it
returns exactly one suite-level result whose status is failed iff the stdout
transcript contains a FAILED or ERROR token, and passed otherwise. -/
theorem parse_pytest_output_total (stdout stderr : Str) :
    parse_pytest_output stdout stderr ≠ []
    ∧ ((∀ line ∈ splitOnChar '\n' stdout,
          scanTestLine (stripWs line) = none
          ∧ matchFailedSummary (stripWs line) = none) →
        parse_pytest_output stdout stderr
          = [ { test_name := "<suite>".toList,
                status :=
                  if containsSub "FAILED".toList stdout
                      || containsSub "ERROR".toList stdout then Status.failed
                  else Status.passed,
                error_message := none,
                stdout := stdout, stderr := stderr } ]) := by
  constructor
  · simp only [parse_pytest_output]
    exact ite_nil_ne_nil _ _
  · intro hall
    have h1 : (splitOnChar '\n' stdout).foldl
        (pass1Step stdout stderr (extractFailureDetails stdout)) ([], [])
        = (([], []) : List TestResult × List Str) := by
      apply foldl_congr_id
      intro line hline a
      simp [pass1Step, (hall line hline).1]
    have h2 : (splitOnChar '\n' stdout).foldl (pass2Step stdout stderr) ([], [])
        = (([], []) : List TestResult × List Str) := by
      apply foldl_congr_id
      intro line hline a
      simp [pass2Step, (hall line hline).2]
    simp only [parse_pytest_output, h1, h2]
    simp

/-- C2 witness: evaluation of `parse_pytest_output_total` on a transcript with
no recognizable test line. -/
theorem parse_pytest_output_total_witness :
    parse_pytest_output "2 tests collected\nall good\n".toList []
      = [ { test_name := "<suite>".toList, status := Status.passed,
            error_message := none,
            stdout := "2 tests collected\nall good\n".toList, stderr := [] } ] := by
  have h := (parse_pytest_output_total "2 tests collected\nall good\n".toList []).2
    (by decide)
  rw [h]
  decide

/-- The §8 transcript: two per-test lines and a FAILURES section holding a
`test_b` block. -/
def sampleTranscript : Str :=
  "tests/x.py::test_a PASSED\ntests/x.py::test_b FAILED\n=== FAILURES ===\n___ test_b ___\nassert 1 == 2\n".toList

/-- C9: parsing the §8 transcript yields exactly two results — `test_a` passed
and `test_b` failed, the latter carrying a non-empty error message equal to
the stripped FAILURES block content. -/
theorem parse_pytest_output_example :
    parse_pytest_output sampleTranscript []
      = [ { test_name := "test_a".toList, status := Status.passed,
            error_message := some [], stdout := sampleTranscript, stderr := [] },
          { test_name := "test_b".toList, status := Status.failed,
            error_message := some "assert 1 == 2".toList,
            stdout := sampleTranscript, stderr := [] } ]
    ∧ extractFailureDetails sampleTranscript
        = [("test_b".toList, "assert 1 == 2".toList)]
    ∧ "assert 1 == 2".toList ≠ [] := by
  refine ⟨by decide, by decide, by decide⟩

/-! ## agents/executor/runner.py — ExecutorAgent._run_pytest -/

/-- Outcome of the `try` block around `create_subprocess_exec` and
`asyncio.wait_for(proc.communicate(), timeout)`: completion within the
timeout with captured output, `asyncio.TimeoutError`, or any other exception
(process-launch failure). -/
inductive LaunchOutcome where
  | completed (stdout stderr : Str)
  | timedOut
  | launchFailure (msg : Str)
deriving DecidableEq, Repr

/-- `ExecutorAgent._run_pytest` over a launch outcome.  The second component
records whether the child process is known terminated when the function
returns: after `proc.communicate()` it has exited (`true`); in the
`asyncio.TimeoutError` handler the code performs no `proc.kill()` or
`proc.terminate()` call and cancelling `communicate()` does not stop the
child, so the child is still running (`false`); on a launch failure no child
was spawned (`true`, vacuously). -/
def run_pytest (suiteName : Str) (timeout : Nat) (outcome : LaunchOutcome) :
    ExecutionResult × Bool :=
  match outcome with
  | LaunchOutcome.completed stdout stderr =>
      ({ suite_name := suiteName,
         test_results := parse_pytest_output stdout stderr }, true)
  | LaunchOutcome.timedOut =>
      ({ suite_name := suiteName,
         test_results :=
           [ { test_name := "<suite>".toList, status := Status.timeout,
               error_message :=
                 some ("Test execution timed out after ".toList
                   ++ Nat.toDigits 10 timeout ++ "s".toList) } ] }, false)
  | LaunchOutcome.launchFailure msg =>
      ({ suite_name := suiteName,
         test_results :=
           [ { test_name := "<suite>".toList, status := Status.error,
               error_message := some msg } ] }, true)

/-- C1 (on the code as written): a timeout yields exactly one result with
status timeout and the descriptive message, and any other launch failure
yields exactly one status-error result — no exception escapes (the embedding
is a total function) — but in the timeout branch the child process is NOT
terminated: the `asyncio.TimeoutError` handler contains no `proc.kill()` /
`proc.terminate()`, so an orphan child remains. -/
theorem run_pytest_outcome_spec (name : Str) (timeout : Nat) (msg : Str) :
    (run_pytest name timeout LaunchOutcome.timedOut).1.test_results
      = [ { test_name := "<suite>".toList, status := Status.timeout,
            error_message :=
              some ("Test execution timed out after ".toList
                ++ Nat.toDigits 10 timeout ++ "s".toList) } ]
    ∧ (run_pytest name timeout LaunchOutcome.timedOut).2 = false
    ∧ (run_pytest name timeout (LaunchOutcome.launchFailure msg)).1.test_results
      = [ { test_name := "<suite>".toList, status := Status.error,
            error_message := some msg } ] :=
  ⟨rfl, rfl, rfl⟩

/-! ## agents/mapper/api_mapper.py — schema inference -/

/-- A JSON-shaped Python value (floats as rationals). -/
inductive JValue where
  | vstr (s : Str)
  | vbool (b : Bool)
  | vint (n : Int)
  | vfloat (q : ℚ)
  | varr (items : List JValue)
  | vobj (fields : List (Str × JValue))
  | vnull
deriving Repr

/-- An inferred schema entry: a type-name string or a nested schema
(the values of the `dict[str, Any]` built by `_infer_schema`). -/
inductive SchemaVal where
  | tag (t : Str)
  | nested (fields : List (Str × SchemaVal))
deriving Repr

instance : Inhabited JValue := ⟨JValue.vnull⟩

instance : Inhabited SchemaVal := ⟨SchemaVal.tag []⟩

mutual
/-- The isinstance chain of `_infer_schema` for one value: str, bool, int,
float, list, dict (recursive), None. -/
def tagOfValue : JValue → SchemaVal
  | JValue.vstr _ => SchemaVal.tag "string".toList
  | JValue.vbool _ => SchemaVal.tag "boolean".toList
  | JValue.vint _ => SchemaVal.tag "integer".toList
  | JValue.vfloat _ => SchemaVal.tag "number".toList
  | JValue.varr _ => SchemaVal.tag "array".toList
  | JValue.vobj fields => SchemaVal.nested (inferSchema fields)
  | JValue.vnull => SchemaVal.tag "nullable".toList

/-- `MapperAgent._infer_schema` over the items of a dict. -/
def inferSchema : List (Str × JValue) → List (Str × SchemaVal)
  | [] => []
  | (k, v) :: rest => (k, tagOfValue v) :: inferSchema rest
end

/-- models/interactions.py `HTTPExchange` (fields relevant to the claims). -/
structure HTTPExchange where
  method : Str
  path : Str
  request_body : Option JValue := none
  request_content_type : Option Str := none
  status_code : Int
  response_body : Option JValue := none
  response_content_type : Option Str := none
deriving Repr

/-- `HTTPExchange.is_json_request`:
`bool(self.request_content_type and "json" in self.request_content_type)`. -/
def HTTPExchange.is_json_request (ex : HTTPExchange) : Bool :=
  match ex.request_content_type with
  | some ct => containsSub "json".toList ct
  | none => false

/-- `HTTPExchange.is_json_response`. -/
def HTTPExchange.is_json_response (ex : HTTPExchange) : Bool :=
  match ex.response_content_type with
  | some ct => containsSub "json".toList ct
  | none => false

/-- `HTTPExchange.is_success`: `200 <= self.status_code < 400`. -/
def HTTPExchange.is_success (ex : HTTPExchange) : Bool :=
  decide (200 ≤ ex.status_code) && decide (ex.status_code < 400)

/-- `isinstance(body, dict)` on an optional JSON body. -/
def isObjBody : Option JValue → Bool
  | some (JValue.vobj _) => true
  | _ => false

/-- The dict items of an optional JSON body (`[]` when not a dict). -/
def objFields : Option JValue → List (Str × JValue)
  | some (JValue.vobj fields) => fields
  | _ => []

/-- The request-schema loop of `_build_endpoint_info`: break at the first
exchange with a JSON request whose body is a dict. -/
def requestSchemaOf : List HTTPExchange → Option (List (Str × SchemaVal))
  | [] => none
  | ex :: rest =>
      if ex.is_json_request && isObjBody ex.request_body then
        some (inferSchema (objFields ex.request_body))
      else requestSchemaOf rest

/-- The response-schema loop of `_build_endpoint_info`: break at the first
exchange with a JSON response AND a success status — even when that
exchange's body is not a dict (then no schema at all). -/
def responseSchemaOf : List HTTPExchange → Option (List (Str × SchemaVal))
  | [] => none
  | ex :: rest =>
      if ex.is_json_response && ex.is_success then
        match ex.response_body with
        | some (JValue.vobj fields) => some (inferSchema fields)
        | _ => none
      else responseSchemaOf rest

/-- C8 (amended): the request schema comes from the first exchange with a JSON
dict request body; the response schema from the first exchange with a JSON
response and a success status (not merely "the first with a JSON body"),
provided that exchange's body is a dict; each field maps through the fixed
isinstance chain, recursing into nested dicts; the inference is a pure
function of the representative body. -/
theorem schema_inference_spec (exs : List HTTPExchange) :
    requestSchemaOf exs
      = (exs.find? (fun ex => ex.is_json_request && isObjBody ex.request_body)).map
          (fun ex => inferSchema (objFields ex.request_body))
    ∧ responseSchemaOf exs
      = (exs.find? (fun ex => ex.is_json_response && ex.is_success)).bind
          (fun ex =>
            match ex.response_body with
            | some (JValue.vobj fields) => some (inferSchema fields)
            | _ => none)
    ∧ (∀ fields : List (Str × JValue),
        inferSchema fields = fields.map (fun kv => (kv.1, tagOfValue kv.2)))
    ∧ (∀ s, tagOfValue (JValue.vstr s) = SchemaVal.tag "string".toList)
    ∧ (∀ b, tagOfValue (JValue.vbool b) = SchemaVal.tag "boolean".toList)
    ∧ (∀ n, tagOfValue (JValue.vint n) = SchemaVal.tag "integer".toList)
    ∧ (∀ q, tagOfValue (JValue.vfloat q) = SchemaVal.tag "number".toList)
    ∧ (∀ l, tagOfValue (JValue.varr l) = SchemaVal.tag "array".toList)
    ∧ (∀ f, tagOfValue (JValue.vobj f) = SchemaVal.nested (inferSchema f))
    ∧ tagOfValue JValue.vnull = SchemaVal.tag "nullable".toList := by
  refine ⟨?_, ?_, ?_, fun _ => rfl, fun _ => rfl, fun _ => rfl, fun _ => rfl,
    fun _ => rfl, fun _ => rfl, rfl⟩
  · induction exs with
    | nil => rfl
    | cons ex rest ih =>
        by_cases h : (ex.is_json_request && isObjBody ex.request_body) = true
        · simp [requestSchemaOf, List.find?_cons, h]
        · simp only [Bool.not_eq_true] at h
          simp [requestSchemaOf, List.find?_cons, h, ih]
  · induction exs with
    | nil => rfl
    | cons ex rest ih =>
        by_cases h : (ex.is_json_response && ex.is_success) = true
        · simp [responseSchemaOf, List.find?_cons, h]
        · simp only [Bool.not_eq_true] at h
          simp [responseSchemaOf, List.find?_cons, h, ih]
  · intro fields
    induction fields with
    | nil => rfl
    | cons kv rest ih =>
        rcases kv with ⟨k, v⟩
        simp [inferSchema, ih]

/-- A non-successful (404) exchange whose JSON response body is a dict. -/
def exResp404 : HTTPExchange :=
  { method := "GET".toList, path := "/a".toList, status_code := 404,
    response_body := some (JValue.vobj [("a".toList, JValue.vstr "x".toList)]),
    response_content_type := some "application/json".toList }

/-- A successful (200) exchange whose JSON response body is a dict. -/
def exResp200 : HTTPExchange :=
  { method := "GET".toList, path := "/a".toList, status_code := 200,
    response_body := some (JValue.vobj [("b".toList, JValue.vint 1)]),
    response_content_type := some "application/json".toList }

/-- C8 counterexample: in the group `[exResp404, exResp200]` the first exchange
with a JSON (dict) body is `exResp404`, but the response schema is inferred
from `exResp200` — the selection additionally requires a success status, so
the claim "the first exchange in the group that has a JSON body" is false for
response schemas. -/
theorem schema_first_json_counterexample :
    (exResp404.is_json_response = true ∧ isObjBody exResp404.response_body = true)
    ∧ responseSchemaOf [exResp404, exResp200]
        = some [("b".toList, SchemaVal.tag "integer".toList)]
    ∧ responseSchemaOf [exResp404, exResp200]
        ≠ some (inferSchema (objFields exResp404.response_body)) := by
  refine ⟨⟨rfl, rfl⟩, rfl, ?_⟩
  have e : inferSchema (objFields exResp404.response_body)
      = [("a".toList, SchemaVal.tag "string".toList)] := rfl
  have e2 : responseSchemaOf [exResp404, exResp200]
      = some [("b".toList, SchemaVal.tag "integer".toList)] := rfl
  rw [e, e2]
  intro h
  simp [SchemaVal.tag.injEq] at h

/-- C8 witness: evaluation of `schema_inference_spec` on the concrete group. -/
theorem schema_inference_spec_witness :
    ("b".toList, tagOfValue (JValue.vint 1))
      ∈ inferSchema [("b".toList, JValue.vint 1)]
    ∧ requestSchemaOf [exResp404, exResp200]
      = ([exResp404, exResp200].find?
          (fun ex => ex.is_json_request && isObjBody ex.request_body)).map
          (fun ex => inferSchema (objFields ex.request_body)) := by
  constructor
  · rw [(schema_inference_spec [exResp404, exResp200]).2.2.1
      [("b".toList, JValue.vint 1)]]
    simp
  · exact (schema_inference_spec [exResp404, exResp200]).1

/-! ## models/test_model.py TestSuite.to_file_content and
agents/generator/api_test_gen.py GeneratorAgent._extract_test_functions -/

/-- models/test_model.py `TestSuite` (fields relevant to the claims). -/
structure TestSuite where
  name : Str
  tests : List GeneratedTest := []
  imports_code : Str := []
  setup_code : Str := []
deriving Repr

/-- Python `"\n\n\n".join(parts)`. -/
def joinBlocks : List Str → Str
  | [] => []
  | [p] => p
  | p :: ps => p ++ '\n' :: '\n' :: '\n' :: joinBlocks ps

/-- `TestSuite.to_file_content`: optional stripped imports, optional stripped
setup, each test source stripped, joined by blank-line boundaries, plus a
final newline. -/
def to_file_content (suite : TestSuite) : Str :=
  let parts :=
    (if ¬ suite.imports_code.isEmpty then [stripWs suite.imports_code] else [])
    ++ (if ¬ suite.setup_code.isEmpty then [stripWs suite.setup_code] else [])
    ++ suite.tests.map (fun t => stripWs t.source_code)
  joinBlocks parts ++ ['\n']

/-- Word char or dot (regex `[\w.]`). -/
def isWordDot (c : Char) : Bool := isWordChar c || c = '.'

/-- `\s*\n` with greedy backtracking: consume the maximal whitespace run up to
and including its last newline; fails when the run holds no newline. -/
def dropWsThroughLastNl (s : Str) : Option Str :=
  let run := s.takeWhile isSpaceChar
  if '\n' ∈ run then
    some ((run.reverse.takeWhile (fun c => ¬ c = '\n')).reverse
      ++ s.dropWhile isSpaceChar)
  else none

/-- One decorator iteration `@[\w.]+(?:\(.*?\))?\s*\n` of the test-block
pattern: `@`, a non-empty word-or-dot run, an optional parenthesis group
closed at the first `)`, then `\s*\n`. -/
def tryDecoratorLine (s : Str) : Option Str :=
  match s with
  | [] => none
  | c :: rest =>
      if c = '@' then
        if (rest.takeWhile isWordDot).isEmpty then none
        else
          let afterW := rest.dropWhile isWordDot
          if afterW.head? = some '(' then
            match findSub [')'] afterW.tail with
            | some r2 => dropWsThroughLastNl r2
            | none => none
          else dropWsThroughLastNl afterW
      else none

/-- The greedy star over decorator iterations.  Fuelled: every iteration
consumes at least one character. -/
def skipDecoratorsF : Nat → Str → Str
  | 0, s => s
  | Nat.succ fuel, s =>
      match tryDecoratorLine s with
      | some rest => skipDecoratorsF fuel rest
      | none => s

def skipDecorators (s : Str) : Str := skipDecoratorsF s.length s

/-- The lookahead `(?=\n(?:@[\w.]+|def test_|\Z))` tested at the head. -/
def lookaheadBoundary (s : Str) : Bool :=
  match s with
  | [] => false
  | c :: rest =>
      decide (c = '\n')
      && (rest.isEmpty
          || (decide (rest.head? = some '@')
              && !(rest.tail.takeWhile isWordDot).isEmpty)
          || "def test_".toList.isPrefixOf rest)

/-- The trailing lazy `.*?` before the lookahead: split at the first position
where the boundary matches (`none` when it never does). -/
def takeToBoundary : Str → Option (Str × Str)
  | [] => none
  | s@(c :: rest) =>
      if lookaheadBoundary s then some ([], s)
      else
        match takeToBoundary rest with
        | some pr => some (c :: pr.1, pr.2)
        | none => none

/-- One attempt of the test-block pattern
`((?:@[\w.]+(?:\(.*?\))?\s*\n)*def test_\w+\(.*?\).*?)(?=\n(?:@[\w.]+|def test_|\Z))`
at the head of the string: decorator star, the literal `def test_`, a
non-empty word run, `(` closed at the first `)`, and the lazy tail up to the
first boundary.  Returns the captured group and the rest (beginning at the
lookahead). -/
def tryTestBlock (s : Str) : Option (Str × Str) :=
  let afterDec := skipDecorators s
  if "def test_".toList.isPrefixOf afterDec then
    let afterLit := afterDec.drop 9
    if (afterLit.takeWhile isWordChar).isEmpty then none
    else
      let afterName := afterLit.dropWhile isWordChar
      if afterName.head? = some '(' then
        match findSub [')'] afterName.tail with
        | some afterParen =>
            match takeToBoundary afterParen with
            | some br => some (s.take (s.length - br.2.length), br.2)
            | none => none
        | none => none
      else none
  else none

/-- `re.findall` of the test-block pattern (non-overlapping, leftmost;
resuming at the zero-width lookahead).  Fuelled: every step advances at least
one character. -/
def findTestBlocksF : Nat → Str → List Str
  | 0, _ => []
  | _, [] => []
  | Nat.succ fuel, s@(_ :: rest) =>
      match tryTestBlock s with
      | some gr => gr.1 :: findTestBlocksF fuel gr.2
      | none => findTestBlocksF fuel rest

def findTestBlocks (s : Str) : List Str := findTestBlocksF s.length s

/-- The text up to the first `\ndef test_` occurrence, and the rest. -/
def takeToNlDef : Str → Str × Str
  | [] => ([], [])
  | s@(c :: rest) =>
      if "\ndef test_".toList.isPrefixOf s then ([], s)
      else
        let pr := takeToNlDef rest
        (c :: pr.1, pr.2)

/-- `re.split(r"(?=\ndef test_)", code)`: pieces between the zero-width split
points before each `\ndef test_`. -/
def splitBeforeNlDefF : Nat → Str → List Str
  | 0, s => [s]
  | Nat.succ fuel, s =>
      match takeToNlDef s with
      | (piece, []) => [piece]
      | (piece, c :: rem2) =>
          piece ::
            (match splitBeforeNlDefF fuel rem2 with
             | [] => [[c]]
             | p :: ps => (c :: p) :: ps)

def splitBeforeNlDef (s : Str) : List Str := splitBeforeNlDefF s.length s

/-- `GeneratorAgent._extract_test_functions`, reduced to the list of candidate
source bodies (the id/name/endpoint fields are not used by the claims):
regex findall, the `re.split` fallback filtered by `"def test_" in p` and
stripped, then the per-match strip-and-skip-empty loop. -/
def extract_test_functions (code : Str) : List Str :=
  let matches0 := findTestBlocks code
  let matches1 :=
    if matches0.isEmpty then
      (splitBeforeNlDef code).filterMap (fun p =>
        if containsSub "def test_".toList p then some (stripWs p) else none)
    else matches0
  matches1.filterMap (fun m =>
    let m2 := stripWs m
    if m2.isEmpty then none else some m2)

/-- No inner block boundary: no newline of `s` is followed by `def test_` or
by a decorator-looking `@<word-or-dot>` start. -/
def noInnerBoundary : Str → Bool
  | [] => true
  | c :: rest =>
      (if c = '\n' then
        !("def test_".toList.isPrefixOf rest)
        && !(decide (rest.head? = some '@')
            && !(rest.tail.takeWhile isWordDot).isEmpty)
      else true)
      && noInnerBoundary rest

/-- A canonical single test block: no surrounding whitespace, begins
`def test_<name>(` with a closed parenthesis, and no line inside starts a new
block. -/
def isCanonicalTestBlock (s : Str) : Bool :=
  decide (stripWs s = s)
  && !s.isEmpty
  && "def test_".toList.isPrefixOf s
  && !((s.drop 9).takeWhile isWordChar).isEmpty
  && decide (((s.drop 9).dropWhile isWordChar).head? = some '(')
  && (findSub [')'] ((s.drop 9).dropWhile isWordChar).tail).isSome
  && noInnerBoundary s

/-- A suite holding one candidate test whose source text defines two
`test_*` functions. -/
def doubleDefSuite : TestSuite :=
  { name := "s".toList,
    tests := [ { name := "test_a".toList,
                 source_code :=
                   "def test_a():\n    assert 1\ndef test_b():\n    assert 2".toList,
                 test_type := TestType.api } ] }

/-- C7 counterexample: `doubleDefSuite` has one candidate test with a
non-empty source defining `test_*` functions, yet re-splitting the rendered
file recovers two candidates, so neither the count nor the bodies round-trip. -/
theorem roundtrip_counterexample :
    doubleDefSuite.tests.length = 1
    ∧ (doubleDefSuite.tests.map (fun t => t.source_code)).all
        (fun s => !s.isEmpty && containsSub "def test_".toList s) = true
    ∧ extract_test_functions (to_file_content doubleDefSuite)
        = [ "def test_a():\n    assert 1".toList,
            "def test_b():\n    assert 2".toList ]
    ∧ (extract_test_functions (to_file_content doubleDefSuite)).length = 2 := by
  refine ⟨rfl, by decide, by decide, by decide⟩

theorem findSub_single_spec (d : Char) (s r : Str) (h : findSub [d] s = some r) :
    r <:+ s ∧ r.length < s.length := by
  induction s with
  | nil =>
      exfalso
      simp [findSub] at h
  | cons c rest ih =>
      by_cases hc : [d].isPrefixOf (c :: rest) = true
      · rw [findSub, if_pos hc] at h
        simp only [List.length_cons, List.drop_succ_cons, List.drop_zero] at h
        cases h
        exact ⟨⟨[c], rfl⟩, by simp⟩
      · rw [findSub, if_neg hc] at h
        rcases ih h with ⟨h1, h2⟩
        exact ⟨h1.trans ⟨[c], rfl⟩, by simp; omega⟩

theorem findSub_single_append (d : Char) (s r tail : Str)
    (h : findSub [d] s = some r) :
    findSub [d] (s ++ tail) = some (r ++ tail) := by
  induction s with
  | nil =>
      exfalso
      simp [findSub] at h
  | cons c rest ih =>
      by_cases hc : [d].isPrefixOf (c :: rest) = true
      · have hc2 : [d].isPrefixOf (c :: (rest ++ tail)) = true := by
          have hd : d = c := by
            simpa [List.isPrefixOf] using hc
          simp [List.isPrefixOf, hd]
        rw [findSub, if_pos hc] at h
        simp only [List.length_cons, List.drop_succ_cons, List.drop_zero] at h
        cases h
        rw [List.cons_append, findSub, if_pos hc2]
        simp
      · have hc2 : [d].isPrefixOf (c :: (rest ++ tail)) = false := by
          simp only [List.isPrefixOf, Bool.not_eq_true] at hc ⊢
          simpa using hc
        rw [findSub, if_neg hc] at h
        rw [List.cons_append, findSub, if_neg (by simp [hc2])]
        exact ih h

theorem takeToBoundary_decomp (s a b : Str) (h : takeToBoundary s = some (a, b)) :
    a ++ b = s := by
  induction s generalizing a b with
  | nil => simp [takeToBoundary] at h
  | cons c rest ih =>
      by_cases hb : lookaheadBoundary (c :: rest) = true
      · rw [takeToBoundary, if_pos hb] at h
        cases h
        rfl
      · rw [takeToBoundary, if_neg hb] at h
        rcases he : takeToBoundary rest with _ | ⟨pq⟩
        · rw [he] at h
          simp at h
        · rw [he] at h
          simp only [Option.some.injEq, Prod.mk.injEq] at h
          rcases h with ⟨h1, h2⟩
          rw [← h1, ← h2, List.cons_append]
          have he2 : takeToBoundary rest = some (pq.1, pq.2) := by
            rw [he]
          rw [ih pq.1 pq.2 he2]

theorem isPrefixOf_append_left (pat a b : Str) (h : pat.isPrefixOf a = true) :
    pat.isPrefixOf (a ++ b) = true := by
  rw [List.isPrefixOf_iff_prefix] at h ⊢
  exact h.trans (List.prefix_append a b)

theorem isPrefixOf_confined (pat a b : Str) (h : pat.length ≤ a.length) :
    pat.isPrefixOf (a ++ b) = pat.isPrefixOf a := by
  induction pat generalizing a with
  | nil => simp [List.isPrefixOf]
  | cons p pr ih =>
      cases a with
      | nil => simp at h
      | cons x a2 =>
          simp only [List.cons_append, List.isPrefixOf, List.append_eq]
          rw [ih a2 (by simpa using h)]

theorem isPrefixOf_blocked (pat a tail : Str) (c : Char) (hc : ¬ c ∈ pat)
    (hh : tail.head? = some c) (hlen : a.length < pat.length) :
    pat.isPrefixOf (a ++ tail) = false := by
  induction pat generalizing a with
  | nil => simp at hlen
  | cons p pr ih =>
      cases a with
      | nil =>
          cases tail with
          | nil => simp at hh
          | cons t ts =>
              have htc : t = c := by simpa using hh
              have hpt : ¬ p = t := by
                intro he
                apply hc
                rw [← htc, ← he]
                exact List.mem_cons_self p pr
              simp [List.isPrefixOf, hpt]
      | cons x a2 =>
          simp only [List.cons_append, List.isPrefixOf, List.append_eq]
          rw [ih a2 (fun hm => hc (List.mem_cons_of_mem p hm)) (by simpa using hlen)]
          simp

theorem takeWhile_append_stop (p : Char → Bool) (a b : Str)
    (h : a.dropWhile p ≠ []) :
    (a ++ b).takeWhile p = a.takeWhile p
    ∧ (a ++ b).dropWhile p = a.dropWhile p ++ b := by
  induction a with
  | nil => simp [List.dropWhile] at h
  | cons c rest ih =>
      by_cases hc : p c = true
      · have hr : rest.dropWhile p ≠ [] := by
          rw [List.dropWhile_cons, if_pos hc] at h
          exact h
        rcases ih hr with ⟨ih1, ih2⟩
        constructor
        · rw [List.cons_append, List.takeWhile_cons, if_pos hc,
            List.takeWhile_cons, if_pos hc, ih1]
        · rw [List.cons_append, List.dropWhile_cons, if_pos hc,
            List.dropWhile_cons, if_pos hc, ih2]
      · have hcf : p c = false := by
          cases hpc : p c
          · rfl
          · exact absurd hpc hc
        constructor
        · rw [List.cons_append, List.takeWhile_cons, if_neg (by simp [hcf]),
            List.takeWhile_cons, if_neg (by simp [hcf])]
        · rw [List.cons_append, List.dropWhile_cons, if_neg (by simp [hcf]),
            List.dropWhile_cons, if_neg (by simp [hcf])]
          simp

theorem takeWhile_length_le (p : Char → Bool) (l : Str) :
    (l.takeWhile p).length ≤ l.length := by
  have h := congrArg List.length (List.takeWhile_append_dropWhile (p := p) (l := l))
  simp only [List.length_append] at h
  omega

theorem dropWhile_length_le (p : Char → Bool) (l : Str) :
    (l.dropWhile p).length ≤ l.length := by
  have h := congrArg List.length (List.takeWhile_append_dropWhile (p := p) (l := l))
  simp only [List.length_append] at h
  omega

theorem dropWsThroughLastNl_length (s r : Str) (h : dropWsThroughLastNl s = some r) :
    r.length ≤ s.length := by
  unfold dropWsThroughLastNl at h
  by_cases hn : '\n' ∈ s.takeWhile isSpaceChar
  · rw [if_pos hn] at h
    cases h
    have h1 : ((s.takeWhile isSpaceChar).reverse.takeWhile
        (fun c => ¬ c = '\n')).length ≤ (s.takeWhile isSpaceChar).length := by
      calc ((s.takeWhile isSpaceChar).reverse.takeWhile
            (fun c => ¬ c = '\n')).length
          ≤ (s.takeWhile isSpaceChar).reverse.length :=
            takeWhile_length_le _ _
        _ = (s.takeWhile isSpaceChar).length := List.length_reverse _
    have h2 : (s.takeWhile isSpaceChar).length
        + (s.dropWhile isSpaceChar).length = s.length := by
      rw [← List.length_append, List.takeWhile_append_dropWhile]
    simp only [List.length_append, List.length_reverse]
    omega
  · rw [if_neg hn] at h
    cases h


theorem tryDecoratorLine_length (s r : Str) (h : tryDecoratorLine s = some r) :
    r.length ≤ s.length := by
  cases s with
  | nil => simp [tryDecoratorLine] at h
  | cons c rest =>
      rw [tryDecoratorLine] at h
      by_cases hc : c = '@'
      · rw [if_pos hc] at h
        by_cases hw : (rest.takeWhile isWordDot).isEmpty = true
        · rw [if_pos hw] at h
          cases h
        · rw [if_neg hw] at h
          have hdw : (rest.dropWhile isWordDot).length ≤ rest.length :=
            dropWhile_length_le _ _
          by_cases hp : (rest.dropWhile isWordDot).head? = some '('
          · rw [if_pos hp] at h
            rcases hfs : findSub [')'] (rest.dropWhile isWordDot).tail with _ | ⟨r2⟩
            · rw [hfs] at h
              cases h
            · rw [hfs] at h
              have hl1 := dropWsThroughLastNl_length r2 r h
              have hl2 := (findSub_single_spec ')' _ r2 hfs).2
              have htail : ((rest.dropWhile isWordDot).tail).length
                  ≤ (rest.dropWhile isWordDot).length := by
                cases rest.dropWhile isWordDot <;> simp
              simp only [List.length_cons]
              omega
          · rw [if_neg hp] at h
            have hl1 := dropWsThroughLastNl_length _ r h
            simp only [List.length_cons]
            omega
      · rw [if_neg hc] at h
        cases h

theorem skipDecoratorsF_length (fuel : Nat) (s : Str) :
    (skipDecoratorsF fuel s).length ≤ s.length := by
  induction fuel generalizing s with
  | zero => simp [skipDecoratorsF]
  | succ f ih =>
      rw [skipDecoratorsF]
      rcases hd : tryDecoratorLine s with _ | ⟨rest⟩
      · simp
      · exact le_trans (ih rest) (tryDecoratorLine_length s rest hd)

theorem skipDecorators_length (s : Str) : (skipDecorators s).length ≤ s.length :=
  skipDecoratorsF_length s.length s

theorem skipDecorators_none (s : Str) (h : tryDecoratorLine s = none) :
    skipDecorators s = s := by
  unfold skipDecorators
  cases hl : s.length with
  | zero => simp [skipDecoratorsF]
  | succ n =>
      rw [skipDecoratorsF, h]

theorem tryTestBlock_length (s : Str) (gr : Str × Str)
    (h : tryTestBlock s = some gr) : gr.2.length < s.length := by
  unfold tryTestBlock at h
  by_cases h1 : "def test_".toList.isPrefixOf (skipDecorators s) = true
  · rw [if_pos h1] at h
    by_cases h2 : (((skipDecorators s).drop 9).takeWhile isWordChar).isEmpty = true
    · rw [if_pos h2] at h
      cases h
    · rw [if_neg h2] at h
      by_cases h3 : (((skipDecorators s).drop 9).dropWhile isWordChar).head? = some '('
      · rw [if_pos h3] at h
        rcases hfs : findSub [')'] (((skipDecorators s).drop 9).dropWhile isWordChar).tail
            with _ | ⟨afterParen⟩
        · rw [hfs] at h
          cases h
        · rw [hfs] at h
          dsimp only at h
          rcases hb : takeToBoundary afterParen with _ | ⟨br⟩
          · rw [hb] at h
            cases h
          · rw [hb] at h
            dsimp only at h
            cases h
            have e0 := takeToBoundary_decomp afterParen br.1 br.2 (by rw [hb])
            have e1 : br.2.length ≤ afterParen.length := by
              have := congrArg List.length e0
              simp only [List.length_append] at this
              omega
            have e2 := (findSub_single_spec ')' _ afterParen hfs).2
            have e3 : ((((skipDecorators s).drop 9).dropWhile isWordChar).tail).length
                ≤ (((skipDecorators s).drop 9).dropWhile isWordChar).length := by
              cases ((skipDecorators s).drop 9).dropWhile isWordChar <;> simp
            have e4 : (((skipDecorators s).drop 9).dropWhile isWordChar).length
                ≤ ((skipDecorators s).drop 9).length := dropWhile_length_le _ _
            have e5 : ((skipDecorators s).drop 9).length
                = (skipDecorators s).length - 9 := by simp
            have e6 : 9 ≤ (skipDecorators s).length := by
              have := List.IsPrefix.length_le (List.isPrefixOf_iff_prefix.1 h1)
              simpa using this
            have e7 := skipDecorators_length s
            simp only []
            omega
      · rw [if_neg h3] at h
        cases h
  · rw [if_neg h1] at h
    cases h

theorem findTestBlocksF_congr (n : Nat) :
    ∀ (s : Str) (f1 f2 : Nat), s.length ≤ f1 → s.length ≤ f2 → s.length ≤ n →
      findTestBlocksF f1 s = findTestBlocksF f2 s := by
  induction n with
  | zero =>
      intro s f1 f2 _ _ hn
      have : s = [] := by
        cases s
        · rfl
        · simp at hn
      subst this
      cases f1 <;> cases f2 <;> rfl
  | succ n ih =>
      intro s f1 f2 h1 h2 hn
      cases s with
      | nil => cases f1 <;> cases f2 <;> rfl
      | cons c rest =>
          rcases f1 with _ | g1
          · simp at h1
          rcases f2 with _ | g2
          · simp at h2
          rw [findTestBlocksF, findTestBlocksF]
          rcases ht : tryTestBlock (c :: rest) with _ | ⟨gr⟩
          · dsimp only
            simp only [List.length_cons] at h1 h2 hn
            exact ih rest g1 g2 (by omega) (by omega) (by omega)
          · have hlt := tryTestBlock_length _ gr ht
            simp only [List.length_cons] at hlt h1 h2 hn
            dsimp only
            rw [ih gr.2 g1 g2 (by omega) (by omega) (by omega)]

theorem findTestBlocks_cons_none (c : Char) (rest : Str)
    (h : tryTestBlock (c :: rest) = none) :
    findTestBlocks (c :: rest) = findTestBlocks rest := by
  unfold findTestBlocks
  simp only [List.length_cons]
  rw [findTestBlocksF, h]

theorem findTestBlocks_some (s : Str) (gr : Str × Str)
    (h : tryTestBlock s = some gr) :
    findTestBlocks s = gr.1 :: findTestBlocks gr.2 := by
  have hlt := tryTestBlock_length s gr h
  cases s with
  | nil => simp at hlt
  | cons c rest =>
      unfold findTestBlocks
      simp only [List.length_cons]
      rw [findTestBlocksF, h]
      simp only [List.length_cons] at hlt
      dsimp only
      rw [findTestBlocksF_congr gr.2.length gr.2 rest.length gr.2.length
        (by omega) (le_refl _) (le_refl _)]

theorem eq_of_suffix_length (l s : Str) (h : l <:+ s) (hl : l.length = s.length) :
    l = s := by
  rcases h with ⟨t, ht⟩
  have hlen := congrArg List.length ht
  simp only [List.length_append] at hlen
  have ht0 : t = [] := List.length_eq_zero.1 (by omega)
  rw [ht0] at ht
  simpa using ht

theorem dropWhile_eq_self_head (p : Char → Bool) (s : Str)
    (h : s.dropWhile p = s) : ∀ c, s.head? = some c → p c = false := by
  intro c hc
  cases s with
  | nil => simp at hc
  | cons a t =>
      have hac : a = c := by simpa using hc
      subst hac
      by_cases hp : p a = true
      · rw [List.dropWhile_cons, if_pos hp] at h
        have hlen := congrArg List.length h
        have hd := dropWhile_length_le p t
        simp only [List.length_cons] at hlen
        omega
      · simpa using hp

theorem stripBoth_eq_self_ends (p : Char → Bool) (s : Str) (h : stripBoth p s = s) :
    (∀ c, s.head? = some c → p c = false)
    ∧ (∀ c, s.getLast? = some c → p c = false) := by
  have hlen := congrArg List.length h
  have l1 : (stripBoth p s).length ≤ (s.dropWhile p).length := by
    unfold stripBoth
    calc ((s.dropWhile p).reverse.dropWhile p).reverse.length
        = ((s.dropWhile p).reverse.dropWhile p).length := List.length_reverse _
      _ ≤ (s.dropWhile p).reverse.length := dropWhile_length_le _ _
      _ = (s.dropWhile p).length := List.length_reverse _
  have l2 := dropWhile_length_le p s
  have hdl : (s.dropWhile p).length = s.length := by omega
  have hds : s.dropWhile p = s :=
    eq_of_suffix_length _ _ (List.dropWhile_suffix p) hdl
  refine ⟨dropWhile_eq_self_head p s hds, ?_⟩
  have h2 : (s.reverse.dropWhile p).reverse = s := by
    unfold stripBoth at h
    rw [hds] at h
    exact h
  have h3 : s.reverse.dropWhile p = s.reverse := by
    have := congrArg List.reverse h2
    simpa using this
  intro c hc
  apply dropWhile_eq_self_head p s.reverse h3
  rw [List.head?_reverse]
  exact hc

theorem stripWs_pad (s : Str) (hne : s ≠ []) (h : stripWs s = s) :
    stripWs (s ++ ['\n', '\n']) = s := by
  rcases stripBoth_eq_self_ends isSpaceChar s h with ⟨hh, hl⟩
  cases s with
  | nil => exact absurd rfl hne
  | cons a t =>
      have ha : isSpaceChar a = false := hh a rfl
      unfold stripWs stripBoth
      rw [List.cons_append, List.dropWhile_cons, if_neg (by simp [ha])]
      have hrev : (a :: (t ++ ['\n', '\n'])).reverse
          = '\n' :: '\n' :: (a :: t).reverse := by
        simp
      rw [hrev]
      rw [List.dropWhile_cons, if_pos (by simp [isSpaceChar]),
        List.dropWhile_cons, if_pos (by simp [isSpaceChar])]
      have hrd : (a :: t).reverse.dropWhile isSpaceChar = (a :: t).reverse := by
        rcases hrev2 : (a :: t).reverse with _ | ⟨b, u⟩
        · have := congrArg List.length hrev2
          simp at this
        · have hb : (a :: t).getLast? = some b := by
            rw [← List.head?_reverse, hrev2]
            rfl
          have hbf := hl b hb
          rw [List.dropWhile_cons, if_neg (by simp [hbf])]
      rw [hrd, List.reverse_reverse]

theorem noInnerBoundary_tail (c : Char) (rest : Str)
    (h : noInnerBoundary (c :: rest) = true) : noInnerBoundary rest = true := by
  rw [noInnerBoundary] at h
  simp only [Bool.and_eq_true] at h
  exact h.2

theorem noInnerBoundary_suffix (s : Str) (b : Str) (h : noInnerBoundary s = true)
    (hsuf : ('\n' :: b) <:+ s) :
    "def test_".toList.isPrefixOf b = false
    ∧ (decide (b.head? = some '@')
        && !(b.tail.takeWhile isWordDot).isEmpty) = false := by
  induction s with
  | nil =>
      rcases hsuf with ⟨t, ht⟩
      have := congrArg List.length ht
      simp at this
  | cons c rest ih =>
      rcases hsuf with ⟨t, ht⟩
      cases t with
      | nil =>
          simp only [List.nil_append] at ht
          have hc : '\n' = c := by
            injection ht with h1 h2
          have hr : b = rest := by
            injection ht with h1 h2
          rw [noInnerBoundary] at h
          rw [← hc] at h
          rw [if_pos rfl] at h
          simp only [Bool.and_eq_true] at h
          rcases h with ⟨⟨hx1, hx2⟩, _⟩
          subst hr
          constructor
          · simpa using hx1
          · simp only [Bool.not_eq_true'] at hx2
            exact hx2
      | cons t0 ts =>
          have hsuf2 : ('\n' :: b) <:+ rest := by
            refine ⟨ts, ?_⟩
            injection ht with h1 h2
          exact ih (noInnerBoundary_tail c rest h) hsuf2

theorem takeWhile_nil_append (p : Char → Bool) (a tailT : Str) (c : Char)
    (ha : a.takeWhile p = []) (hc : tailT.head? = some c) (hpc : p c = false) :
    (a ++ tailT).takeWhile p = [] := by
  cases a with
  | nil =>
      cases tailT with
      | nil => simp at hc
      | cons t ts =>
          have : t = c := by simpa using hc
          subst this
          simp [List.takeWhile_cons, hpc]
  | cons x a2 =>
      rw [List.takeWhile_cons] at ha
      by_cases hx : p x = true
      · rw [if_pos hx] at ha
        simp at ha
      · rw [List.cons_append, List.takeWhile_cons, if_neg hx]

theorem getLast_of_suffix (l2 l : Str) (h : l2 <:+ l) (hne : l2 ≠ []) :
    l.getLast? = l2.getLast? := by
  rcases h with ⟨t, ht⟩
  rw [← ht]
  exact List.getLast?_append_of_ne_nil t hne

theorem lookahead_false_inside (s : Str) (hnib : noInnerBoundary s = true)
    (hstrip : stripWs s = s) (tail : Str)
    (hhead : tail.head? = some '\n') :
    ∀ b, b ≠ [] → b <:+ s → lookaheadBoundary (b ++ tail) = false := by
  intro b hbne hbsuf
  cases b with
  | nil => exact absurd rfl hbne
  | cons c b2 =>
      rw [List.cons_append, lookaheadBoundary]
      by_cases hc : c = '\n'
      · subst hc
        have hsub := noInnerBoundary_suffix s b2 hnib hbsuf
        cases b2 with
        | nil =>
            exfalso
            have hlast := (stripBoth_eq_self_ends isSpaceChar s hstrip).2
            have hsl : s.getLast? = some '\n' := by
              rw [getLast_of_suffix ['\n'] s hbsuf (by simp)]
              rfl
            have := hlast '\n' hsl
            simp [isSpaceChar] at this
        | cons d b3 =>
            have hni : ((d :: b3) ++ tail).isEmpty = false := by
              simp
            have hnp : "def test_".toList.isPrefixOf ((d :: b3) ++ tail) = false := by
              by_cases hlen : "def test_".toList.length ≤ (d :: b3).length
              · rw [isPrefixOf_confined _ _ _ hlen]
                exact hsub.1
              · exact isPrefixOf_blocked _ _ _ '\n' (by decide) hhead (by omega)
            have hna : (decide (((d :: b3) ++ tail).head? = some '@')
                && !(((d :: b3) ++ tail).tail.takeWhile isWordDot).isEmpty) = false := by
              by_cases hd : d = '@'
              · subst hd
                have h2 := hsub.2
                simp only [List.head?_cons, List.tail_cons] at h2
                have h3 : b3.takeWhile isWordDot = [] := by
                  rcases hx : b3.takeWhile isWordDot with _ | ⟨y, ys⟩
                  · rfl
                  · rw [hx] at h2
                    simp at h2
                have hall : (b3 ++ tail).takeWhile isWordDot = [] :=
                  takeWhile_nil_append isWordDot b3 tail '\n' h3 hhead (by decide)
                simp [List.cons_append, hall]
              · simp only [List.cons_append, List.head?_cons]
                have hdd : (decide (some d = some '@')) = false := by
                  simp [hd]
                rw [hdd]
                simp
            rw [hni, hnp, hna]
            simp
      · have : (decide (c = '\n')) = false := by simp [hc]
        rw [this]
        simp

theorem takeToBoundary_skip (a tail : Str)
    (h : ∀ b, b ≠ [] → b <:+ a → lookaheadBoundary (b ++ tail) = false) :
    takeToBoundary (a ++ tail)
      = match takeToBoundary tail with
        | some pr => some (a ++ pr.1, pr.2)
        | none => none := by
  induction a with
  | nil =>
      simp only [List.nil_append]
      rcases ht : takeToBoundary tail with _ | ⟨pr⟩ <;> simp
  | cons c a2 ih =>
      have hb := h (c :: a2) (by simp) (List.suffix_refl _)
      rw [List.cons_append] at hb
      rw [List.cons_append, takeToBoundary, if_neg (by simp [hb])]
      rw [ih (fun b hbne hbs => h b hbne (hbs.trans (List.suffix_cons c a2)))]
      rcases ht : takeToBoundary tail with _ | ⟨pr⟩ <;> simp

theorem canonical_parts (s : Str) (hc : isCanonicalTestBlock s = true) :
    stripWs s = s ∧ s ≠ []
    ∧ "def test_".toList.isPrefixOf s = true
    ∧ ((s.drop 9).takeWhile isWordChar).isEmpty = false
    ∧ ((s.drop 9).dropWhile isWordChar).head? = some '('
    ∧ (findSub [')'] ((s.drop 9).dropWhile isWordChar).tail).isSome = true
    ∧ noInnerBoundary s = true := by
  unfold isCanonicalTestBlock at hc
  simp only [Bool.and_eq_true, decide_eq_true_eq, Bool.not_eq_true'] at hc
  obtain ⟨⟨⟨⟨⟨⟨h1, h2⟩, h3⟩, h4⟩, h5⟩, h6⟩, h7⟩ := hc
  refine ⟨h1, ?_, h3, h4, h5, h6, h7⟩
  intro hnil
  rw [hnil] at h2
  simp at h2

theorem tryDecoratorLine_not_at (c : Char) (x : Str) (hne : ¬ c = '@') :
    tryDecoratorLine (c :: x) = none := by
  rw [tryDecoratorLine, if_neg hne]

theorem tryTestBlock_canonical (s : Str) (hc : isCanonicalTestBlock s = true)
    (tail tb1 tb2 : Str) (hhead : tail.head? = some '\n')
    (htb : takeToBoundary tail = some (tb1, tb2)) :
    tryTestBlock (s ++ tail) = some (s ++ tb1, tb2) := by
  obtain ⟨hstrip, hne, hpre, hname, hparen, hfind, hnib⟩ := canonical_parts s hc
  have hpre2 : ∃ rest9, s = "def test_".toList ++ rest9 := by
    rcases List.isPrefixOf_iff_prefix.1 hpre with ⟨t, ht⟩
    exact ⟨t, ht.symm⟩
  obtain ⟨c0, s2, hs⟩ : ∃ c0 s2, s = c0 :: s2 := by
    cases s with
    | nil => exact absurd rfl hne
    | cons a b => exact ⟨a, b, rfl⟩
  have hc0 : c0 = 'd' := by
    have h1 : s.head? = some 'd' := by
      rcases hpre2 with ⟨rest9, hr⟩
      rw [hr]
      rfl
    rw [hs] at h1
    simpa using h1
  have hd : tryDecoratorLine (s ++ tail) = none := by
    rw [hs, List.cons_append]
    exact tryDecoratorLine_not_at c0 _ (by rw [hc0]; decide)
  have h9 : 9 ≤ s.length := by
    have := List.IsPrefix.length_le (List.isPrefixOf_iff_prefix.1 hpre)
    simpa using this
  have hdrop : (s ++ tail).drop 9 = s.drop 9 ++ tail := by
    rw [List.drop_append_eq_append_drop]
    have h0 : 9 - s.length = 0 := by omega
    rw [h0, List.drop_zero]
  have hdw_ne : (s.drop 9).dropWhile isWordChar ≠ [] := by
    intro hnil
    rw [hnil] at hparen
    simp at hparen
  obtain ⟨htw, hdw⟩ := takeWhile_append_stop isWordChar (s.drop 9) tail hdw_ne
  obtain ⟨r, hr⟩ : ∃ r, (s.drop 9).dropWhile isWordChar = '(' :: r := by
    rcases hx : (s.drop 9).dropWhile isWordChar with _ | ⟨y, ys⟩
    · rw [hx] at hparen
      simp at hparen
    · rw [hx] at hparen
      have hy : y = '(' := by simpa using hparen
      exact ⟨ys, by rw [hy]⟩
  obtain ⟨afterParen, hfs⟩ :
      ∃ ap, findSub [')'] ((s.drop 9).dropWhile isWordChar).tail = some ap := by
    rcases hx : findSub [')'] ((s.drop 9).dropWhile isWordChar).tail with _ | ⟨ap⟩
    · rw [hx] at hfind
      simp at hfind
    · exact ⟨ap, rfl⟩
  rw [hr] at hfs
  simp only [List.tail_cons] at hfs
  have hsufAP : afterParen <:+ s := by
    have h1 : afterParen <:+ r := (findSub_single_spec ')' r afterParen hfs).1
    have h2 : r <:+ '(' :: r := List.suffix_cons '(' r
    have h3 : ('(' :: r) <:+ s.drop 9 := by
      rw [← hr]
      exact List.dropWhile_suffix isWordChar
    have h4 : s.drop 9 <:+ s := List.drop_suffix 9 s
    exact ((h1.trans h2).trans h3).trans h4
  have hbf : ∀ b, b ≠ [] → b <:+ afterParen → lookaheadBoundary (b ++ tail) = false :=
    fun b hbne hbs =>
      lookahead_false_inside s hnib hstrip tail hhead b hbne (hbs.trans hsufAP)
  have hdecomp : tb1 ++ tb2 = tail := takeToBoundary_decomp tail tb1 tb2 htb
  have htake : (s ++ tail).take ((s ++ tail).length - tb2.length) = s ++ tb1 := by
    have hassoc : s ++ tail = (s ++ tb1) ++ tb2 := by
      rw [← hdecomp, List.append_assoc]
    rw [hassoc]
    have hlen : ((s ++ tb1) ++ tb2).length - tb2.length = (s ++ tb1).length := by
      simp only [List.length_append]
      omega
    rw [hlen, List.take_left]
  unfold tryTestBlock
  rw [skipDecorators_none _ hd]
  rw [if_pos (isPrefixOf_append_left _ _ _ hpre)]
  rw [hdrop]
  rw [if_neg (by rw [htw]; simp [hname])]
  rw [hdw, hr, List.cons_append]
  rw [if_pos (by simp)]
  simp only [List.tail_cons]
  rw [findSub_single_append ')' r afterParen tail hfs]
  dsimp only
  rw [takeToBoundary_skip afterParen tail hbf, htb]
  dsimp only
  rw [htake]

/-- The list `re.findall` returns on a canonical join: every block but the
last keeps the two blank-line newlines that precede the next block's
boundary newline. -/
def padBlocks : List Str → List Str
  | [] => []
  | [s] => [s]
  | s :: rest => (s ++ ['\n', '\n']) :: padBlocks rest

theorem joinBlocks_cons_ex (s : Str) (rest : List Str) :
    ∃ w, joinBlocks (s :: rest) = s ++ w := by
  cases rest with
  | nil => exact ⟨[], by simp [joinBlocks]⟩
  | cons s2 r2 =>
      exact ⟨'\n' :: '\n' :: '\n' :: joinBlocks (s2 :: r2), rfl⟩

theorem not_defPrefix_nl (v : Str) :
    "def test_".toList.isPrefixOf ('\n' :: v) = false := by
  rw [Bool.eq_false_iff]
  intro h
  rcases List.isPrefixOf_iff_prefix.1 h with ⟨t, ht⟩
  have ht2 : 'd' :: ("ef test_".toList ++ t) = '\n' :: v := ht
  have hh := congrArg List.head? ht2
  simp at hh

theorem lookaheadBoundary_nl_nl (v : Str) :
    lookaheadBoundary ('\n' :: '\n' :: v) = false := by
  rw [lookaheadBoundary, not_defPrefix_nl]
  simp

theorem lookaheadBoundary_nl_def (v : Str)
    (hp : "def test_".toList.isPrefixOf v = true) :
    lookaheadBoundary ('\n' :: v) = true := by
  rw [lookaheadBoundary, hp]
  simp

theorem takeToBoundary_triple (v : Str)
    (hp : "def test_".toList.isPrefixOf v = true) :
    takeToBoundary ('\n' :: '\n' :: '\n' :: v)
      = some (['\n', '\n'], '\n' :: v) := by
  have h3 : takeToBoundary ('\n' :: v) = some ([], '\n' :: v) := by
    rw [takeToBoundary, if_pos (lookaheadBoundary_nl_def v hp)]
  have h2 : takeToBoundary ('\n' :: '\n' :: v) = some (['\n'], '\n' :: v) := by
    rw [takeToBoundary, if_neg (by rw [lookaheadBoundary_nl_nl]; simp), h3]
  rw [takeToBoundary, if_neg (by rw [lookaheadBoundary_nl_nl]; simp), h2]

theorem tryTestBlock_nl (v : Str) : tryTestBlock ('\n' :: v) = none := by
  unfold tryTestBlock
  rw [skipDecorators_none _ (tryDecoratorLine_not_at '\n' v (by decide))]
  rw [if_neg (by rw [not_defPrefix_nl]; simp)]

theorem findTestBlocks_nl (v : Str) :
    findTestBlocks ('\n' :: v) = findTestBlocks v :=
  findTestBlocks_cons_none '\n' v (tryTestBlock_nl v)

theorem findTestBlocks_joinBlocks (sources : List Str) (hne : sources ≠ [])
    (hall : ∀ s ∈ sources, isCanonicalTestBlock s = true) :
    findTestBlocks (joinBlocks sources ++ ['\n']) = padBlocks sources := by
  induction sources with
  | nil => exact absurd rfl hne
  | cons s rest ih =>
      cases rest with
      | nil =>
          have hc := hall s (by simp)
          have htb : takeToBoundary ['\n'] = some ([], ['\n']) := by decide
          have h1 : tryTestBlock (s ++ ['\n']) = some (s, ['\n']) := by
            have := tryTestBlock_canonical s hc ['\n'] [] ['\n'] rfl htb
            rw [this]
            simp
          have hj : joinBlocks [s] = s := rfl
          rw [hj, findTestBlocks_some _ _ h1]
          have he : findTestBlocks ['\n'] = [] := by decide
          rw [he]
          rfl
      | cons s2 r2 =>
          have hc := hall s (by simp)
          have hc2 := hall s2 (by simp)
          obtain ⟨w, hw⟩ := joinBlocks_cons_ex s2 r2
          have hpre2 : "def test_".toList.isPrefixOf
              (joinBlocks (s2 :: r2) ++ ['\n']) = true := by
            rw [hw, List.append_assoc]
            exact isPrefixOf_append_left _ _ _ ((canonical_parts s2 hc2).2.2.1)
          have htb := takeToBoundary_triple (joinBlocks (s2 :: r2) ++ ['\n']) hpre2
          have h1 : tryTestBlock
                (s ++ ('\n' :: '\n' :: '\n' :: (joinBlocks (s2 :: r2) ++ ['\n'])))
              = some (s ++ ['\n', '\n'],
                  '\n' :: (joinBlocks (s2 :: r2) ++ ['\n'])) :=
            tryTestBlock_canonical s hc _ _ _ rfl htb
          have hassoc : joinBlocks (s :: s2 :: r2) ++ ['\n']
              = s ++ ('\n' :: '\n' :: '\n' :: (joinBlocks (s2 :: r2) ++ ['\n'])) := by
            show (s ++ ('\n' :: '\n' :: '\n' :: joinBlocks (s2 :: r2))) ++ ['\n'] = _
            rw [List.append_assoc]
            rfl
          rw [hassoc, findTestBlocks_some _ _ h1]
          dsimp only
          rw [findTestBlocks_nl]
          rw [ih (by simp) (fun t ht => hall t (List.mem_cons_of_mem s ht))]
          rfl

theorem padBlocks_ne_nil (s : Str) (rest : List Str) :
    padBlocks (s :: rest) ≠ [] := by
  cases rest with
  | nil => simp [padBlocks]
  | cons s2 r2 =>
      show (s ++ ['\n', '\n']) :: padBlocks (s2 :: r2) ≠ []
      simp

theorem isEmpty_false_of_canonical (s : Str) (hne : s ≠ []) :
    s.isEmpty = false := by
  cases s with
  | nil => exact absurd rfl hne
  | cons a t => rfl

theorem filterMap_strip_padBlocks (sources : List Str)
    (hall : ∀ s ∈ sources, isCanonicalTestBlock s = true) :
    (padBlocks sources).filterMap (fun m =>
      if (stripWs m).isEmpty then none else some (stripWs m)) = sources := by
  induction sources with
  | nil => rfl
  | cons s rest ih =>
      have hc := hall s (by simp)
      have hstrip := (canonical_parts s hc).1
      have hne := (canonical_parts s hc).2.1
      have hie := isEmpty_false_of_canonical s hne
      cases rest with
      | nil =>
          show List.filterMap _ [s] = [s]
          rw [List.filterMap_cons, hstrip, hie]
          rfl
      | cons s2 r2 =>
          show List.filterMap _ ((s ++ ['\n', '\n']) :: padBlocks (s2 :: r2)) = _
          rw [List.filterMap_cons, stripWs_pad s hne hstrip, hie]
          rw [ih (fun t ht => hall t (List.mem_cons_of_mem s ht))]
          rfl

theorem extract_test_functions_eq (code : Str) :
    extract_test_functions code
      = (if (findTestBlocks code).isEmpty then
          (splitBeforeNlDef code).filterMap (fun p =>
            if containsSub "def test_".toList p then some (stripWs p) else none)
        else findTestBlocks code).filterMap (fun m =>
          if (stripWs m).isEmpty then none else some (stripWs m)) := rfl

theorem extract_join (sources : List Str)
    (hall : ∀ s ∈ sources, isCanonicalTestBlock s = true) :
    extract_test_functions (joinBlocks sources ++ ['\n']) = sources := by
  cases sources with
  | nil => decide
  | cons s rest =>
      have hfb := findTestBlocks_joinBlocks (s :: rest) (by simp) hall
      have hpne : (padBlocks (s :: rest)).isEmpty = false := by
        rcases hp : padBlocks (s :: rest) with _ | ⟨a, b⟩
        · exact absurd hp (padBlocks_ne_nil s rest)
        · rfl
      rw [extract_test_functions_eq, hfb, hpne]
      rw [if_neg Bool.false_ne_true]
      exact filterMap_strip_padBlocks (s :: rest) hall

/-- C7 (corrected): the render/extract round-trip holds for suites with no
shared imports or setup whose every test source is a canonical single test
block (stripped, beginning `def test_<name>(` with a closed parenthesis, and
with no inner line starting a new `def test_` or decorator): rendering with
`to_file_content` and re-splitting with `extract_test_functions` recovers
exactly the original source bodies.  The unrestricted claim fails: a single
test whose source defines two `test_*` functions is split into two
candidates (`roundtrip_counterexample`). -/
theorem roundtrip_spec (suite : TestSuite)
    (him : suite.imports_code = [])
    (hset : suite.setup_code = [])
    (hcan : ∀ t ∈ suite.tests, isCanonicalTestBlock t.source_code = true) :
    extract_test_functions (to_file_content suite)
      = suite.tests.map (fun t => t.source_code) := by
  have hmap : suite.tests.map (fun t => stripWs t.source_code)
      = suite.tests.map (fun t => t.source_code) :=
    List.map_congr_left (fun t ht => (canonical_parts _ (hcan t ht)).1)
  have hparts : to_file_content suite
      = joinBlocks (suite.tests.map (fun t => t.source_code)) ++ ['\n'] := by
    unfold to_file_content
    rw [him, hset]
    simp [hmap]
  rw [hparts]
  apply extract_join
  intro m hm
  rcases List.mem_map.1 hm with ⟨t, ht, hts⟩
  rw [← hts]
  exact hcan t ht

/-- A concrete two-test suite of canonical blocks. -/
def rtSuite : TestSuite :=
  { name := "suite_rt".toList,
    tests :=
      [ { name := "test_a".toList,
          source_code := "def test_a():\n    assert 1".toList,
          test_type := TestType.api },
        { name := "test_b".toList,
          source_code := "def test_b():\n    assert 2".toList,
          test_type := TestType.api } ] }

/-- C7 witness: `roundtrip_spec` applied to the concrete suite `rtSuite`,
with all hypotheses discharged by evaluation. -/
theorem roundtrip_spec_witness :
    rtSuite.imports_code = []
    ∧ rtSuite.setup_code = []
    ∧ (∀ t ∈ rtSuite.tests, isCanonicalTestBlock t.source_code = true)
    ∧ extract_test_functions (to_file_content rtSuite)
        = rtSuite.tests.map (fun t => t.source_code) :=
  ⟨rfl, rfl, by decide, roundtrip_spec rtSuite rfl rfl (by decide)⟩
